import Mathlib

/-!
# Verification of the McFunction command-script tooling core

Shallow embedding, in Lean 4, of the core components of the
"McFunction-Spirit for 1.12.2" editor extension:

* the line tokenizer `extractCommand`
  (src/core/CommandCompletionProvider.ts);
* the nested-command resolver `findActiveCommand` / `isExecuteComplete` /
  `getExecuteParamStage` (same file);
* the resource-path resolver `parseResourcePath` / `getResolvedParts` /
  `buildResourceUri` (utils/MinecraftUtils.ts);
* the workspace symbol index and per-document line cache of
  `DocumentManager` (src/core/DocumentManager.ts) together with the
  global tables of `FileLineIdleSearchProcessor`;
* the link-provider line cache (`LinkCacheManager` and the
  text-change handler of `LinkProvider`).

TypeScript strings become `String` (scanned as `List Char`), JS `Map`s
become association lists with JS `Map` semantics (`set` updates in
place or appends, `delete` removes the key), numbers become `Int` or
`Nat` as appropriate.  Timestamp fields (`lastParsed`, `lastAccessed`)
are omitted: no modeled code path reads them (there is no TTL check in
the functions embedded here; eviction in `getCommandSegments` sorts by
line number, not by time).
-/

/-- Whitespace as removed by JavaScript `String.prototype.trim` (restricted
to the ASCII whitespace characters that can occur in the inputs of this
development). -/
def isWsChar (c : Char) : Bool := c = ' ' ∨ c = '\t' ∨ c = '\n' ∨ c = '\r'

/-- Model of JavaScript `trim` on a list of characters: drop leading and
trailing whitespace. -/
def trimL (l : List Char) : List Char :=
  ((l.dropWhile isWsChar).reverse.dropWhile isWsChar).reverse

/-- Model of JavaScript `trim` at `String` level. -/
def trimS (s : String) : String := String.mk (trimL s.toList)

/-!
## Tokenizer (`extractCommand`, src/core/CommandCompletionProvider.ts)

The source is one left-to-right loop over the characters of the line,
with state: the accumulated `result`, the `start` offset of the pending
segment, an `inQuotes` flag, an `escapeNext` flag, and the bracket
state `{selector, jsonObject, jsonArray}`.
-/

/-- The scanner state of `extractCommand`: `result` and `start` are the
loop-carried accumulator and segment start offset, the remaining fields
are `inQuotes`, `escapeNext` and the `bracketState` record of the
source. -/
structure ScanState where
  result : List (List Char)
  start : Nat
  inQuotes : Bool
  escapeNext : Bool
  selector : Bool
  jsonObject : Int
  jsonArray : Int
  deriving Repr, DecidableEq

/-- Initial scanner state of `extractCommand`. -/
def initScanState : ScanState :=
  { result := [], start := 0, inQuotes := false, escapeNext := false,
    selector := false, jsonObject := 0, jsonArray := 0 }

/-- The bracket-state block of the `extractCommand` loop body (the
`if (!inQuotes) { … }` region of the source): each `if` mirrors one
statement, in source order, threading the mutated state through
`let`-rebindings as the source mutates `bracketState`. -/
def bracketStep (st : ScanState) (c : Char) : ScanState :=
  if st.inQuotes then st
  else
    let st := if c = '[' ∧ st.jsonObject = 0 ∧ st.jsonArray = 0 then
      { st with selector := true } else st
    let st := if c = ']' ∧ st.selector then { st with selector := false } else st
    let st := if c = '{' then { st with jsonObject := st.jsonObject + 1 } else st
    let st := if c = '}' then { st with jsonObject := max 0 (st.jsonObject - 1) } else st
    let st := if c = '[' ∧ ¬ st.selector then
      { st with jsonArray := st.jsonArray + 1 } else st
    let st := if c = ']' ∧ ¬ st.selector then
      { st with jsonArray := max 0 (st.jsonArray - 1) } else st
    st

/-- The segment flush of the separator branch (`if (i > start) { … }` in
the source): push the trimmed pending segment when it is non-blank. -/
def flushStep (text : List Char) (st : ScanState) (i : Nat) : ScanState :=
  if st.start < i then
    if trimL ((text.drop st.start).take (i - st.start)) ≠ [] then
      { st with result := st.result ++ [trimL ((text.drop st.start).take (i - st.start))] }
    else st
  else st

/-- One iteration of the `extractCommand` loop body, for the character
`c` at index `i` of `text`: escape handling, quote toggling, the
bracket block (`bracketStep`), and the space-separator branch which
flushes the pending segment (`flushStep`) and starts the next segment
after the space. -/
def scanStep (text : List Char) (st : ScanState) (i : Nat) (c : Char) : ScanState :=
  if st.escapeNext then { st with escapeNext := false }
  else if c = '\\' then { st with escapeNext := true }
  else if c = '"' then { st with inQuotes := ! st.inQuotes }
  else
    if c = ' ' ∧ ¬ ((bracketStep st c).inQuotes ∨ (bracketStep st c).selector
        ∨ (bracketStep st c).jsonObject > 0 ∨ (bracketStep st c).jsonArray > 0) then
      { flushStep text (bracketStep st c) i with start := i + 1 }
    else bracketStep st c

/-- The `for` loop of `extractCommand`: scan the remaining characters
`rest`, where `rest = text.drop i`. -/
def scanAux (text : List Char) (i : Nat) : List Char → ScanState → ScanState
  | [], st => st
  | c :: cs, st => scanAux text (i + 1) cs (scanStep text st i c)

/-- `extractCommand` on a list of characters: run the loop, flush the
trailing segment, and append the empty marker token after a trailing
separator space. -/
def extractCommandL (text : List Char) : List (List Char) :=
  let st := scanAux text 0 text initScanState
  let remaining := trimL (text.drop st.start)
  let result := if remaining ≠ [] then st.result ++ [remaining] else st.result
  if 0 < text.length ∧ text.getLast? = some ' ' ∧ text.length ≤ st.start then
    result ++ [[]]
  else result

/-- `extractCommand` (src/core/CommandCompletionProvider.ts): split a raw
line into command segments, respecting quotes, escapes, selector
brackets and JSON object/array nesting. -/
def extractCommand (s : String) : List String :=
  (extractCommandL s.toList).map String.mk

/-!
## Nested-command resolver (src/core/CommandCompletionProvider.ts)

`findActiveCommand` unwinds nested `execute` wrappers; `isExecuteComplete`
checks the four argument slots (entity, x, y, z); `getExecuteParamStage`
reports the first missing or blank slot.
-/

/-- Model of JavaScript `toLowerCase` on one character (ASCII range, which
covers every command name compared in the source). -/
def toLowerChar (c : Char) : Char :=
  if 'A' ≤ c ∧ c ≤ 'Z' then Char.ofNat (c.toNat + 32) else c

/-- Model of JavaScript `toLowerCase` at `String` level. -/
def toLowerS (s : String) : String := String.mk (s.toList.map toLowerChar)

/-- `EXECUTE_PARAM_COUNT` of the source: the wrapper consumes four
argument slots. -/
def EXECUTE_PARAM_COUNT : Nat := 4

/-- `CommandsInfo` of the source (the resolver's result record). -/
structure CommandsInfo where
  isExecute : Bool
  isComplete : Bool
  currentCommands : List String
  paramStage : Int
  deriving Repr, DecidableEq

/-- `isExecuteComplete`: the list has at least five segments and the four
argument slots (indices 1..4) are non-blank after trimming. -/
def isExecuteComplete (commands : List String) : Bool :=
  if commands.length < 1 + EXECUTE_PARAM_COUNT then false
  else (List.range EXECUTE_PARAM_COUNT).all
    (fun j => ! (trimS (commands.getD (j + 1) "")).isEmpty)

/-- `getExecuteParamStage`: the first stage in 0..3 whose slot (index
stage+1) is missing or blank; the source falls back to 3 when every slot
is filled. -/
def getExecuteParamStage (commands : List String) : Int :=
  match (List.range EXECUTE_PARAM_COUNT).find?
    (fun stage =>
      decide (commands.length ≤ stage + 1)
        || (trimS (commands.getD (stage + 1) "")).isEmpty) with
  | some stage => (stage : Int)
  | none => (EXECUTE_PARAM_COUNT : Int) - 1

/-- `findActiveCommand`: the `while (true)` loop of the source.  A head
that is not (case-insensitively) `execute` is returned as-is, complete,
with stage -1; an incomplete `execute` is returned with its stage; a
complete `execute` drops its five tokens (`slice(1 + EXECUTE_PARAM_COUNT)`,
realised by the five-cons pattern so the recursion is structural) and
loops.  In the fallthrough arm the list has fewer than five segments, so
`isExecuteComplete` is false and an `execute` head is incomplete. -/
def findActiveCommand : List String → CommandsInfo
  | c0 :: c1 :: c2 :: c3 :: c4 :: rest =>
    if toLowerS c0 = "execute" then
      if isExecuteComplete (c0 :: c1 :: c2 :: c3 :: c4 :: rest) then
        findActiveCommand rest
      else
        { isExecute := true, isComplete := false,
          currentCommands := c0 :: c1 :: c2 :: c3 :: c4 :: rest,
          paramStage := getExecuteParamStage (c0 :: c1 :: c2 :: c3 :: c4 :: rest) }
    else
      { isExecute := false, isComplete := true,
        currentCommands := c0 :: c1 :: c2 :: c3 :: c4 :: rest, paramStage := -1 }
  | commands =>
    if (commands.head?.map toLowerS) = some "execute" then
      { isExecute := true, isComplete := false, currentCommands := commands,
        paramStage := getExecuteParamStage commands }
    else
      { isExecute := false, isComplete := true, currentCommands := commands,
        paramStage := -1 }

/-!
## Resource path resolver (utils/MinecraftUtils.ts)
-/

/-- JavaScript `String.prototype.split(':')` on a character list: split at
every colon, keeping empty pieces (`"".split(':')` is `[""]`). -/
def splitOnColon : List Char → List (List Char)
  | [] => [[]]
  | c :: cs =>
    if c = ':' then [] :: splitOnColon cs
    else
      match splitOnColon cs with
      | [] => [[c]]
      | t :: ts => (c :: t) :: ts

/-- `parseResourcePath` (utils/MinecraftUtils.ts): more than one colon is
a format error (`null`); no colon gets the default namespace
`minecraft`; one colon splits into trimmed namespace and path; an empty
namespace or path after trimming yields `null`.  The source memoises the
result in `PATH_PARSE_CACHE` keyed by the exact input with a TTL; the
cached value for an input is always the value computed here, so the
cache is value-transparent and is not modeled. -/
def parseResourcePath (resName : String) : Option (String × String) :=
  let pathParts := splitOnColon resName.toList
  if 2 < pathParts.length then none
  else
    let p :=
      if pathParts.length = 1 then
        ("minecraft".toList, trimL (pathParts.getD 0 []))
      else
        (trimL (pathParts.getD 0 []), trimL (pathParts.getD 1 []))
    if p.1 ≠ [] ∧ p.2 ≠ [] then some (String.mk p.1, String.mk p.2) else none

/-- `getResolvedParts` (utils/MinecraftUtils.ts): when the split does not
have exactly two parts, the namespace defaults to `minecraft` and the
path is the whole name (no colon) or everything after the first colon
(several colons); with exactly two parts both are trimmed. -/
def getResolvedParts (resName : String) : List Char × List Char :=
  let parts := splitOnColon resName.toList
  if parts.length ≠ 2 then
    ("minecraft".toList,
      if parts.length = 1 then trimL (parts.getD 0 [])
      else trimL (List.intercalate [':'] (parts.drop 1)))
  else (trimL (parts.getD 0 []), trimL (parts.getD 1 []))

/-- `buildResourceUri` (utils/MinecraftUtils.ts): resolve the name with
`getResolvedParts`, reject an empty namespace or path, and join the
first workspace root (`root`, `none` when no workspace is open) with the
resource directory, namespace, path and extension. -/
def buildResourceUri (root : Option String) (resName resourceDir extension : String) :
    Option String :=
  let p := getResolvedParts resName
  if p.1 = [] ∨ p.2 = [] then none
  else
    match root with
    | none => none
    | some r =>
      some (r ++ "/" ++ resourceDir ++ "/" ++ String.mk p.1 ++ "/" ++ String.mk p.2 ++ extension)

/-- `buildFunctionUri` (utils/MinecraftUtils.ts). -/
def buildFunctionUri (root : Option String) (resName : String) : Option String :=
  buildResourceUri root resName "functions" ".mcfunction"

/-!
## Workspace symbol index and per-document line cache
(src/core/DocumentManager.ts, src/core/FileLineIdleSearchProcessor.ts)

Documents are lists of lines; URIs are strings; JS `Map`s are
association lists (`mapGet` / `mapSet` / `mapDelete` mirror `get`,
`set` and `delete`, with `set` updating in place).  The global
`SCOREBOARDS` and `TAGS` tables of `FileLineIdleSearchProcessor` live
in the same state record as the `documentCache` pool of
`DocumentManager` (`DocumentManager` uses `TAGS` with `add`/`delete`
set operations, so tags are modeled as a list of names).
-/

/-- JS `Map.get`: the value of the first (in a JS `Map`, only) entry
with the key. -/
def mapGet {α β : Type} [DecidableEq α] (k : α) : List (α × β) → Option β
  | [] => none
  | p :: m => if p.1 = k then some p.2 else mapGet k m

/-- JS `Map.delete`: remove the entries with the key. -/
def mapDelete {α β : Type} [DecidableEq α] (k : α) : List (α × β) → List (α × β)
  | [] => []
  | p :: m => if p.1 = k then mapDelete k m else p :: mapDelete k m

/-- JS `Map.set`: update in place when the key is present, append
otherwise. -/
def mapSet {α β : Type} [DecidableEq α] (k : α) (v : β) (m : List (α × β)) :
    List (α × β) :=
  if (mapGet k m).isSome then
    m.map (fun p => if p.1 = k then (k, v) else p)
  else m ++ [(k, v)]

/-- The `DocumentCache` record of DocumentManager.ts (timestamps
omitted, see the header). -/
structure DocCache where
  lineCache : List (Nat × List String)
  lineTagMap : List (Nat × String)
  lineScoreboardMap : List (Nat × String)
  referencedFunctions : List (String × List Nat)
  dispatchFunctions : List (Nat × String)
  deriving Repr, DecidableEq

/-- A fresh `DocumentCache`, as built by `getOrCreateCache` /
`setupDocumentCache`. -/
def emptyDocCache : DocCache :=
  { lineCache := [], lineTagMap := [], lineScoreboardMap := [],
    referencedFunctions := [], dispatchFunctions := [] }

/-- One value of the global `SCOREBOARDS` map: the `[type, display,
creating uri, reference count]` tuple of FileLineIdleSearchProcessor. -/
structure ScoreboardEntry where
  criterionType : String
  displayName : String
  definingUri : String
  referenceCount : Int
  deriving Repr, DecidableEq

/-- The mutable state the DocumentManager functions touch: the
`documentCache` pool plus the global `SCOREBOARDS` and `TAGS` tables. -/
structure IndexState where
  documentCache : List (String × DocCache)
  scoreboards : List (String × ScoreboardEntry)
  tags : List String
  deriving Repr, DecidableEq

/-- The empty index state (fresh session). -/
def emptyIndexState : IndexState :=
  { documentCache := [], scoreboards := [], tags := [] }

/-- `getOrCreateCache` / `setupDocumentCache`: ensure a cache slot for
`uri` exists (both source functions create the same fresh record). -/
def ensureCache (uri : String) (st : IndexState) : IndexState :=
  if (mapGet uri st.documentCache).isSome then st
  else { st with documentCache := mapSet uri emptyDocCache st.documentCache }

/-- Read the cache slot of `uri` (the slot exists whenever this is used
after `ensureCache`; a fresh record is the JS-side default). -/
def getCache (uri : String) (st : IndexState) : DocCache :=
  (mapGet uri st.documentCache).getD emptyDocCache

/-- Mutate the cache slot of `uri` in place (models field assignments on
the object returned by `getOrCreateCache`/`setupDocumentCache`). -/
def updateCache (uri : String) (f : DocCache → DocCache) (st : IndexState) :
    IndexState :=
  { st with documentCache := mapSet uri (f (getCache uri st)) st.documentCache }

/-- Mutate the cache slot of `uri` only when it exists (models
`this.documentCache.get(u)?.referencedFunctions.set(...)`). -/
def updateExistingCache (uri : String) (f : DocCache → DocCache) (st : IndexState) :
    IndexState :=
  if (mapGet uri st.documentCache).isSome then updateCache uri f st else st

/-- `MAX_CACHE_LINES_PER_DOC` of DocumentManager.ts. -/
def MAX_CACHE_LINES_PER_DOC : Nat := 400

/-- `getCommandSegments` (DocumentManager.ts): return the cached
segments on a hit; on a miss tokenize the line with `extractCommand`,
evict the lowest-numbered line when the per-document cap is reached
(the source sorts the keys ascending and deletes the first), store, and
return.  The document is its list of lines; `lineAt` is `getD`. -/
def getCommandSegments (document : List String) (uri : String) (lineNumber : Nat)
    (st : IndexState) : List String × IndexState :=
  let st := ensureCache uri st
  let cache := getCache uri st
  match mapGet lineNumber cache.lineCache with
  | some segs => (segs, st)
  | none =>
    let lineText := document.getD lineNumber ""
    let commandSegments := extractCommand lineText
    let cache :=
      if MAX_CACHE_LINES_PER_DOC ≤ cache.lineCache.length then
        match (cache.lineCache.map Prod.fst).min? with
        | some oldestLine => { cache with lineCache := mapDelete oldestLine cache.lineCache }
        | none => cache
      else cache
    let cache := { cache with lineCache := mapSet lineNumber commandSegments cache.lineCache }
    (commandSegments, { st with documentCache := mapSet uri cache st.documentCache })

/-- `extractTagFromLine` (DocumentManager.ts). -/
def extractTagFromLine (segments : List String) : Option String :=
  if 3 ≤ segments.length ∧ segments.getD 0 "" = "scoreboard" ∧ segments.getD 1 "" = "tag"
  then some (segments.getD 2 "") else none

/-- `extractFunctionFromLine` (DocumentManager.ts). -/
def extractFunctionFromLine (segments : List String) : Option String :=
  if 2 ≤ segments.length ∧ segments.getD 0 "" = "function"
  then some (segments.getD 1 "") else none

/-- `extractScoreboardFromLine` (DocumentManager.ts): `[name, type,
display]`, the display name defaulting to the name (`segments[5] ||
segments[3]`, JS falsiness, so an empty sixth segment also falls
back). -/
def extractScoreboardFromLine (segments : List String) :
    Option (String × String × String) :=
  if 5 ≤ segments.length ∧ segments.getD 0 "" = "scoreboard"
      ∧ segments.getD 1 "" = "objectives" ∧ segments.getD 2 "" = "add"
      ∧ segments.getD 4 "" ≠ "" then
    let display := if segments.getD 5 "" = "" then segments.getD 3 "" else segments.getD 5 ""
    some (segments.getD 3 "", segments.getD 4 "", display)
  else none

/-- `removeScoreboardIfNoOtherOccurrences` (DocumentManager.ts),
translated literally: read the reference count (0 when the entry is
missing), decrement the local copy, set `hasOtherOccurrences` exactly
when the decremented copy is ≤ 0, and delete the entry when
`hasOtherOccurrences` is false.  (The stored count is never written
back.) -/
def removeScoreboardIfNoOtherOccurrences (scoreboard : String) (st : IndexState) :
    IndexState :=
  let scoreboardCount :=
    match mapGet scoreboard st.scoreboards with
    | some e => e.referenceCount
    | none => 0
  let scoreboardCount := scoreboardCount - 1
  let hasOtherOccurrences : Bool := scoreboardCount ≤ 0
  if hasOtherOccurrences then st
  else { st with scoreboards := mapDelete scoreboard st.scoreboards }

/-- The `function`-line part at the end of `processLine`
(DocumentManager.ts).  In the source the inner
`const cache = this.setupDocumentCache(functionUri)` shadows the outer
`cache` of the calling document, so both the `referencedFunctions`
entry and the `dispatchFunctions` entry are written to the target
document's cache; the removal branch reads `cache.dispatchFunctions`
of the calling document.  Translated literally, shadowing included. -/
def processLineFunctions (root : Option String) (docUri : String) (lineNumber : Nat)
    (commandSegments : List String) (st : IndexState) : IndexState :=
  if commandSegments.getD 0 "" = "function" then
    match extractFunctionFromLine commandSegments with
    | none => st
    | some functionCall =>
      match buildFunctionUri root functionCall with
      | some functionUri =>
        let st := ensureCache functionUri st
        let currentLines :=
          ((mapGet docUri (getCache functionUri st).referencedFunctions).getD []) ++ [lineNumber]
        let st := updateCache functionUri
          (fun c => { c with referencedFunctions := mapSet docUri currentLines c.referencedFunctions }) st
        updateCache functionUri
          (fun c => { c with dispatchFunctions := mapSet lineNumber functionUri c.dispatchFunctions }) st
      | none =>
        let dispatchFunction := mapGet lineNumber (getCache docUri st).dispatchFunctions
        let st := updateCache docUri
          (fun c => { c with dispatchFunctions := mapDelete lineNumber c.dispatchFunctions }) st
        match dispatchFunction with
        | none => st
        | some dispatch =>
          match (mapGet dispatch st.documentCache).bind
              (fun c => mapGet docUri c.referencedFunctions) with
          | none => st
          | some refLines =>
            let updatedLines := refLines.filter (fun l => decide (l ≠ lineNumber))
            if 0 < updatedLines.length then
              updateExistingCache dispatch
                (fun c => { c with referencedFunctions := mapSet docUri updatedLines c.referencedFunctions }) st
            else
              updateExistingCache dispatch
                (fun c => { c with referencedFunctions := mapDelete docUri c.referencedFunctions }) st
  else st

/-- `processLine` (DocumentManager.ts): tokenize the line through the
cache, update the tag maps, update the scoreboard maps (with the early
`return` when the same line already contributed the same scoreboard
with the same type and display), then handle `function` call lines via
`processLineFunctions`.  `root` is the first workspace root used by
`buildFunctionUri`. -/
def processLine (root : Option String) (document : List String) (docUri : String)
    (lineNumber : Nat) (st : IndexState) : IndexState :=
  let r := getCommandSegments document docUri lineNumber st
  let commandSegments := r.1
  let st := r.2
  if commandSegments.length = 0 then st
  else
    let tag := extractTagFromLine commandSegments
    let st := ensureCache docUri st
    let st :=
      match tag with
      | some t =>
        let st := updateCache docUri
          (fun c => { c with lineTagMap := mapSet lineNumber t c.lineTagMap }) st
        { st with tags := if t ∈ st.tags then st.tags else st.tags ++ [t] }
      | none =>
        updateCache docUri
          (fun c => { c with lineTagMap := mapDelete lineNumber c.lineTagMap }) st
    match extractScoreboardFromLine commandSegments with
    | some (name, crit, display) =>
      let oldName := mapGet lineNumber (getCache docUri st).lineScoreboardMap
      if oldName = some name
          ∧ (mapGet name st.scoreboards).map (fun e => e.criterionType) = some crit
          ∧ (mapGet name st.scoreboards).map (fun e => e.displayName) = some display then
        st
      else
        let st :=
          match oldName with
          | some old => removeScoreboardIfNoOtherOccurrences old st
          | none => st
        let st := updateCache docUri
          (fun c => { c with lineScoreboardMap := mapSet lineNumber name c.lineScoreboardMap }) st
        let originRefferences := (mapGet name st.scoreboards).map (fun e => e.referenceCount)
        let st :=
          match originRefferences with
          | some n =>
            if n ≠ 0 then
              { st with scoreboards := mapSet name ⟨crit, display, docUri, n + 1⟩ st.scoreboards }
            else
              { st with scoreboards := mapSet name ⟨crit, display, docUri, 1⟩ st.scoreboards }
          | none =>
            { st with scoreboards := mapSet name ⟨crit, display, docUri, 1⟩ st.scoreboards }
        processLineFunctions root docUri lineNumber commandSegments st
    | none =>
      let oldScoreboard := mapGet lineNumber (getCache docUri st).lineScoreboardMap
      let st :=
        match oldScoreboard with
        | some old =>
          let st := updateCache docUri
            (fun c => { c with lineScoreboardMap := mapDelete lineNumber c.lineScoreboardMap }) st
          removeScoreboardIfNoOtherOccurrences old st
        | none => st
      processLineFunctions root docUri lineNumber commandSegments st

/-- Model of JavaScript `startsWith('#')`: the first character is `#`. -/
def startsWithHash (s : String) : Bool := s.toList.head? = some '#'

/-- The per-line loop of `handleDocumentChanges` (DocumentManager.ts)
for one content change, over the list of affected line numbers: skip
lines beyond the document (`continue`), clear the line's `lineCache`
and `lineTagMap` entries, and stop the whole loop (the source's
`return` inside the `forEach` callback) on a blank or `#` comment
line; otherwise re-process the line. -/
def handleChangeLines (root : Option String) (document : List String) (uri : String) :
    List Nat → IndexState → IndexState
  | [], st => st
  | line :: rest, st =>
    if document.length ≤ line then handleChangeLines root document uri rest st
    else
      let st := updateCache uri
        (fun c => { c with lineCache := mapDelete line c.lineCache,
                           lineTagMap := mapDelete line c.lineTagMap }) st
      let trimmedLineText := trimS (document.getD line "")
      if startsWithHash trimmedLineText ∨ trimmedLineText = "" then st
      else handleChangeLines root document uri rest
        (processLine root document uri line st)

/-- `handleDocumentChanges` (DocumentManager.ts) for a single content
change covering lines `[startLine, endLine]` of the (already changed)
document. -/
def handleDocumentChanges (root : Option String) (document : List String)
    (uri : String) (startLine endLine : Nat) (st : IndexState) : IndexState :=
  let st := ensureCache uri st
  handleChangeLines root document uri (List.range' startLine (endLine + 1 - startLine)) st

/-- `getFunctionRefferences` (DocumentManager.ts): resolve the function
resource to its URI and return that document's `referencedFunctions`
map (`null` when the URI cannot be built or no cache slot exists). -/
def getFunctionRefferences (root : Option String) (functionRes : String)
    (st : IndexState) : Option (List (String × List Nat)) :=
  match buildFunctionUri root functionRes with
  | none => none
  | some funcUri => (mapGet funcUri st.documentCache).map (fun c => c.referencedFunctions)

/-!
## Link-provider line cache (LinkCacheManager / LinkProvider)

The `LRUCache` is a JS `Map` used in insertion order with a size cap:
`set` deletes a present key before re-appending, and evicts the oldest
entry when the cap is reached.  `metaCache` and `tokenCache` are
updated by identical code in `clearLineCache` and `adjustLineOffsets`,
so the model tracks a single cache whose entry type is a parameter.
Line numbers are JS numbers, modeled as `Int`.
-/

/-- `LRUCache.set`: delete a present key then append; otherwise evict
the oldest (first) entry when the cap is reached, then append. -/
def lruSet {α : Type} (maxSize : Nat) (k : Int) (v : α) (c : List (Int × α)) :
    List (Int × α) :=
  if (mapGet k c).isSome then mapDelete k c ++ [(k, v)]
  else if maxSize ≤ c.length then c.drop 1 ++ [(k, v)]
  else c ++ [(k, v)]

/-- The integer range `[lo, hi]` as a list (the `for` loops that build
`changedLines` in the LinkProvider change handler). -/
def intRange (lo hi : Int) : List Int :=
  (List.range (hi + 1 - lo).toNat).map (fun (n : Nat) => lo + (n : Int))

/-- `LinkCacheManager.clearLineCache`: delete every listed line from
the document's cache. -/
def clearLineCache {α : Type} (lineNumbers : List Int) (c : List (Int × α)) :
    List (Int × α) :=
  lineNumbers.foldl (fun acc line => mapDelete line acc) c

/-- `LinkCacheManager.adjustLineOffsets`: when `deltaLines ≠ 0`, collect
every entry whose line is greater than `changeEndLine` (in cache
order), then for each collected entry delete its old line and `set` it
at `line + deltaLines`. -/
def adjustLineOffsets {α : Type} (maxSize : Nat) (changeEndLine deltaLines : Int)
    (c : List (Int × α)) : List (Int × α) :=
  if deltaLines = 0 then c
  else
    let affected := c.filter (fun p => decide (changeEndLine < p.1))
    affected.foldl
      (fun acc p => lruSet maxSize (p.1 + deltaLines) p.2 (mapDelete p.1 acc)) c

/-- `CACHE_CONFIG.metaCacheSize` of LinkCacheManager. -/
def META_CACHE_SIZE : Nat := 500

/-- The per-change body of the LinkProvider `onDidChangeTextDocument`
handler, restricted to the document's line cache: compute
`deltaLines = newLineCount - (endLine - startLine + 1)`, build
`changedLines` as `[startLine, endLine]` plus — when `deltaLines ≠ 0` —
every further line of the changed document (`endLine + 1` up to
`lineCount - 1`), clear them, then adjust the offsets of the remaining
lines after `endLine`.  `lineCount` is the line count of the document
after the change. -/
def linkHandleChange {α : Type} (maxSize : Nat) (lineCount startLine endLine newLineCount : Int)
    (c : List (Int × α)) : List (Int × α) :=
  let oldLineCount := endLine - startLine + 1
  let deltaLines := newLineCount - oldLineCount
  let changedLines :=
    intRange startLine endLine ++
      (if deltaLines ≠ 0 then intRange (endLine + 1) (lineCount - 1) else [])
  let c := clearLineCache changedLines c
  if deltaLines ≠ 0 then adjustLineOffsets maxSize endLine deltaLines c else c

/-- Slot `j` (0-based) of an `execute` command token list is missing or
blank: the token at index `j + 1` does not exist or trims to the empty
string. -/
def blankSlot (commands : List String) (j : Nat) : Prop :=
  commands.length ≤ j + 1 ∨ trimS (commands.getD (j + 1) "") = ""

instance (commands : List String) (j : Nat) : Decidable (blankSlot commands j) := by
  unfold blankSlot
  infer_instance

/-!
## C8: the cached tokenization entry point is cache-transparent
-/

/-- A document cache is coherent with a document when every cached line
holds exactly the tokenization of that line's current text (this is
the state of affairs for lines that have not changed since they were
cached). -/
def docCoherent (document : List String) (c : DocCache) : Prop :=
  ∀ (line : Nat) (segs : List String), mapGet line c.lineCache = some segs →
    segs = extractCommand (document.getD line "")

/-- A segment in the scanner's accumulated result: non-empty and equal
to its own trim. -/
def goodSeg (x : List Char) : Prop := x ≠ [] ∧ trimL x = x

/-!
## C9: joining the tokenizer's output reproduces the input line
-/

/-- A well-formed token character for the round-trip property: none of
the characters the scanner treats specially (space, quote, escape,
brackets, braces) and no whitespace. -/
def goodChar (c : Char) : Prop :=
  c ≠ '"' ∧ c ≠ '\\' ∧ c ≠ '[' ∧ c ≠ ']' ∧ c ≠ '{' ∧ c ≠ '}' ∧ isWsChar c = false

instance (c : Char) : Decidable (goodChar c) := by
  unfold goodChar
  infer_instance

/-- A scanner state between tokens: not inside any quoted or bracketed
region and not escaping. -/
def neutralState (st : ScanState) : Prop :=
  st.inQuotes = false ∧ st.escapeNext = false ∧ st.selector = false
    ∧ st.jsonObject = 0 ∧ st.jsonArray = 0

/-- A list of tokens joined with single spaces, last token separate
(character-list level). -/
def joinToks : List (List Char) → List Char → List Char
  | [], t => t
  | tok :: ts, t => tok ++ ' ' :: joinToks ts t

/-- A list of tokens joined with single spaces (the line of the claim,
`String` level). -/
def joinSpace : List String → String
  | [] => ""
  | [t] => t
  | t :: ts => t ++ " " ++ joinSpace ts

example : extractCommand "say hi" = ["say", "hi"] := by decide

example : extractCommand "say \x7b\"text\":\"a b c\"\x7d" = ["say", "\x7b\"text\":\"a b c\"\x7d"] := by decide

example : extractCommand "kill @e[type=Zombie,tag=x]" = ["kill", "@e[type=Zombie,tag=x]"] := by decide

example : extractCommand "say hi " = ["say", "hi", ""] := by decide

example : extractCommand "execute @a[tag=test] ~ ~ ~ say" = ["execute", "@a[tag=test]", "~", "~", "~", "say"] := by decide

/-- Length lower bound extracted from a successful `isExecuteComplete`. -/
theorem isExecuteComplete_length {commands : List String}
    (h : isExecuteComplete commands = true) :
    1 + EXECUTE_PARAM_COUNT ≤ commands.length := by
  by_contra hlt
  unfold isExecuteComplete at h
  rw [if_pos (by omega)] at h
  exact Bool.false_ne_true h

example : findActiveCommand ["say", "hi"] =
    { isExecute := false, isComplete := true, currentCommands := ["say", "hi"], paramStage := -1 } := by decide

example : (findActiveCommand ["execute", "@a", "~"]).paramStage = 2 := by decide

example : findActiveCommand ["execute", "@a", "~", "~", "~", "execute", "@p", "1", "2", "3", "say", "x"] =
    { isExecute := false, isComplete := true, currentCommands := ["say", "x"], paramStage := -1 } := by decide

example : parseResourcePath "func" = some ("minecraft", "func") := by decide

example : parseResourcePath "ns:sub/func" = some ("ns", "sub/func") := by decide

example : parseResourcePath "a:b:c" = none := by decide

example : parseResourcePath ":" = none := by decide

example : parseResourcePath "ns:" = none := by decide

example : getResolvedParts "a:b:c" = ("minecraft".toList, "b:c".toList) := by decide

/-!
## Association-list map lemmas
-/

theorem mapGet_mapDelete_self {α β : Type} [DecidableEq α] (k : α) (m : List (α × β)) :
    mapGet k (mapDelete k m) = none := by
  induction m with
  | nil => rfl
  | cons p m ih =>
    by_cases hp : p.1 = k
    · simpa [mapDelete, hp] using ih
    · simpa [mapDelete, mapGet, hp] using ih

theorem mapGet_mapDelete_ne {α β : Type} [DecidableEq α] {k k₂ : α} (m : List (α × β))
    (h : k ≠ k₂) : mapGet k (mapDelete k₂ m) = mapGet k m := by
  induction m with
  | nil => rfl
  | cons p m ih =>
    by_cases hp : p.1 = k₂
    · have hpk : ¬ p.1 = k := by rw [hp]; exact fun hh => h hh.symm
      simpa [mapDelete, mapGet, hp, hpk, Ne.symm h] using ih
    · by_cases hpk : p.1 = k
      · simp [mapDelete, mapGet, hp, hpk, h, Ne.symm h]
      · simpa [mapDelete, mapGet, hp, hpk] using ih

theorem mapGet_map_update_self {α β : Type} [DecidableEq α] {k : α} (v : β)
    {m : List (α × β)} (h : (mapGet k m).isSome = true) :
    mapGet k (m.map (fun p => if p.1 = k then (k, v) else p)) = some v := by
  induction m with
  | nil => simp [mapGet] at h
  | cons p m ih =>
    by_cases hp : p.1 = k
    · simp [mapGet, hp]
    · simp only [mapGet, hp, if_false] at h
      simpa [mapGet, hp] using ih h

theorem mapGet_append_single_self {α β : Type} [DecidableEq α] {k : α} (v : β)
    {m : List (α × β)} (h : mapGet k m = none) :
    mapGet k (m ++ [(k, v)]) = some v := by
  induction m with
  | nil => simp [mapGet]
  | cons p m ih =>
    by_cases hp : p.1 = k
    · simp [mapGet, hp] at h
    · simp only [mapGet, hp, if_false] at h
      simpa [mapGet, hp] using ih h

theorem mapGet_mapSet_self {α β : Type} [DecidableEq α] (k : α) (v : β) (m : List (α × β)) :
    mapGet k (mapSet k v m) = some v := by
  unfold mapSet
  split
  · exact mapGet_map_update_self v (by assumption)
  · rename_i h
    exact mapGet_append_single_self v (Option.not_isSome_iff_eq_none.mp h)

theorem mapGet_map_update_ne {α β : Type} [DecidableEq α] {k k₂ : α} (v : β)
    (m : List (α × β)) (h : k ≠ k₂) :
    mapGet k (m.map (fun p => if p.1 = k₂ then (k₂, v) else p)) = mapGet k m := by
  induction m with
  | nil => rfl
  | cons p m ih =>
    by_cases hp : p.1 = k₂
    · have hpk : ¬ p.1 = k := by rw [hp]; exact fun hh => h hh.symm
      simpa [mapGet, hp, hpk, Ne.symm h] using ih
    · by_cases hpk : p.1 = k
      · simp [mapGet, hp, hpk, h]
      · simpa [mapGet, hp, hpk] using ih

theorem mapGet_append_single_ne {α β : Type} [DecidableEq α] {k k₂ : α} (v : β)
    (m : List (α × β)) (h : k ≠ k₂) :
    mapGet k (m ++ [(k₂, v)]) = mapGet k m := by
  induction m with
  | nil => simp [mapGet, Ne.symm h]
  | cons p m ih =>
    by_cases hpk : p.1 = k
    · simp [mapGet, hpk]
    · simpa [mapGet, hpk] using ih

theorem mapGet_mapSet_ne {α β : Type} [DecidableEq α] {k k₂ : α} (v : β) (m : List (α × β))
    (h : k ≠ k₂) : mapGet k (mapSet k₂ v m) = mapGet k m := by
  unfold mapSet
  split
  · exact mapGet_map_update_ne v m h
  · exact mapGet_append_single_ne v m h

/-!
## Claim theorems
-/

/-- **C1.**  The claim: a scoreboard entry exists iff its reference
count (the number of live `scoreboard objectives add` declaration
lines) is positive; declaring the same scoreboard in two files gives
one entry with count 2, removing one declaring line leaves the entry
with count 1, and removing the last declaring line deletes the entry.
The code violates this: `removeScoreboardIfNoOtherOccurrences` has its
condition inverted (it deletes exactly when other declaring lines
remain and keeps the entry when none do) and never decrements the
stored count.  This theorem evaluates the embedded code on the failing
input: with `obj` declared in files `A` and `B` (count 2), rewriting
`A`'s declaring line to `say hi` deletes the entry outright, and with
`obj` declared only in `A`, rewriting that single declaring line
leaves the entry in the table with count 1. -/
theorem c1_scoreboard_refcount_code_bug :
    ((mapGet "obj" (processLine (some "ws") ["scoreboard objectives add obj dummy"] "B" 0
        (processLine (some "ws") ["scoreboard objectives add obj dummy"] "A" 0
          emptyIndexState)).scoreboards).map (fun e => e.referenceCount) = some 2)
    ∧ (mapGet "obj" (handleDocumentChanges (some "ws") ["say hi"] "A" 0 0
        (processLine (some "ws") ["scoreboard objectives add obj dummy"] "B" 0
          (processLine (some "ws") ["scoreboard objectives add obj dummy"] "A" 0
            emptyIndexState))).scoreboards = none)
    ∧ (mapGet "obj" (handleDocumentChanges (some "ws") ["say hi"] "A" 0 0
        (processLine (some "ws") ["scoreboard objectives add obj dummy"] "A" 0
          emptyIndexState)).scoreboards =
        some { criterionType := "dummy", displayName := "obj", definingUri := "A",
               referenceCount := 1 }) := by
  decide

/-- **C2.**  The claim: the caller-side `dispatchFunctions` map and the
target-side `referencedFunctions` map stay consistent — after indexing
`function ns:target` at file `A` line 0 the target's map holds
`A ↦ [0]`, and re-indexing that line after it stops calling the target
removes the entry (removing the caller key entirely).  The code
violates this: the `function` branch of `processLine` shadows `cache`
with the target document's cache, so the dispatch record lands on the
target instead of the caller (third and fourth conjuncts), and when
the edited line no longer starts with `function` no retraction runs at
all — the target's `referencedFunctions` still holds `A ↦ [0]` after
the edit (second conjunct). -/
theorem c2_function_reference_retraction_code_bug :
    (getFunctionRefferences (some "ws") "ns:target"
        (processLine (some "ws") ["function ns:target"] "A" 0 emptyIndexState) =
      some [("A", [0])])
    ∧ (getFunctionRefferences (some "ws") "ns:target"
        (handleDocumentChanges (some "ws") ["say hi"] "A" 0 0
          (processLine (some "ws") ["function ns:target"] "A" 0 emptyIndexState)) =
      some [("A", [0])])
    ∧ ((getCache "A"
        (processLine (some "ws") ["function ns:target"] "A" 0 emptyIndexState)).dispatchFunctions
      = [])
    ∧ ((getCache "ws/functions/ns/target.mcfunction"
        (processLine (some "ws") ["function ns:target"] "A" 0 emptyIndexState)).dispatchFunctions
      = [(0, "ws/functions/ns/target.mcfunction")]) := by
  decide

/-- **C3 (counterexample).**  The claim: after an edit touching lines
`[start, end]` with line-count delta `δ ≠ 0`, cached entries for lines
in `[start, end]` are deleted and every cached entry for a line
greater than `end` is re-keyed to `line + δ` rather than dropped.  On
the spec's own scenario — lines 0..10 cached, deleting line 3 of a
12-line document (VS Code reports the change range as lines 3–4 with
replacement text of one line, so δ = −1 and the new line count
is 11) — the entry cached for line 4 is dropped outright by the
handler's clearing pass instead of being re-keyed to 3: lookups at
both 3 and 4 return nothing afterwards, while entries below the start
line survive. -/
theorem c3_linecache_rekey_counterexample :
    (mapGet (4 : Int)
        [((0 : Int), 100), (1, 101), (2, 102), (3, 103), (4, 104), (5, 105), (6, 106),
          (7, 107), (8, 108), (9, 109), (10, 110)] = some 104)
    ∧ (mapGet (3 : Int) (linkHandleChange 500 11 3 4 1
        [((0 : Int), 100), (1, 101), (2, 102), (3, 103), (4, 104), (5, 105), (6, 106),
          (7, 107), (8, 108), (9, 109), (10, 110)]) = none)
    ∧ (mapGet (4 : Int) (linkHandleChange 500 11 3 4 1
        [((0 : Int), 100), (1, 101), (2, 102), (3, 103), (4, 104), (5, 105), (6, 106),
          (7, 107), (8, 108), (9, 109), (10, 110)]) = none)
    ∧ (mapGet (0 : Int) (linkHandleChange 500 11 3 4 1
        [((0 : Int), 100), (1, 101), (2, 102), (3, 103), (4, 104), (5, 105), (6, 106),
          (7, 107), (8, 108), (9, 109), (10, 110)]) = some 100) := by
  decide

/-- **C6 (counterexample).**  The claim: with more than one colon the
resolver still splits at the first colon, so `resolve "a:b:c"` is
`{namespace := "a", path := "b:c"}`.  The code's `parseResourcePath`
instead treats more than one colon as a format error and returns
`null`. -/
theorem c6_multicolon_counterexample :
    parseResourcePath "a:b:c" ≠ some ("a", "b:c") ∧ parseResourcePath "a:b:c" = none := by
  decide

/-- The bracket block never touches `result`, `start`, `inQuotes` or
`escapeNext`. -/
theorem bracketStep_proj (st : ScanState) (c : Char) :
    (bracketStep st c).result = st.result ∧ (bracketStep st c).start = st.start
    ∧ (bracketStep st c).inQuotes = st.inQuotes
    ∧ (bracketStep st c).escapeNext = st.escapeNext := by
  unfold bracketStep
  split_ifs <;> simp_all
  all_goals try (split_ifs <;> simp_all)
  all_goals (split_ifs <;> simp_all)

/-- The bracket block keeps the nesting counters non-negative (the
source clamps decrements with `Math.max(0, …)`). -/
theorem bracketStep_counters (st : ScanState) (c : Char)
    (h1 : 0 ≤ st.jsonObject) (h2 : 0 ≤ st.jsonArray) :
    0 ≤ (bracketStep st c).jsonObject ∧ 0 ≤ (bracketStep st c).jsonArray := by
  unfold bracketStep
  split_ifs <;> simp_all <;> try omega
  all_goals try (split_ifs <;> simp_all <;> try omega)
  all_goals (split_ifs <;> simp_all <;> try omega)

/-- The bracket block is the identity on a character that is not a
bracket or brace. -/
theorem bracketStep_plain (st : ScanState) (c : Char)
    (h1 : ¬ c = '[') (h2 : ¬ c = ']') (h3 : ¬ c = '{') (h4 : ¬ c = '}') :
    bracketStep st c = st := by
  unfold bracketStep
  split_ifs <;> simp_all

/-- The flush only touches `result`. -/
theorem flushStep_proj (text : List Char) (st : ScanState) (i : Nat) :
    (flushStep text st i).start = st.start
    ∧ (flushStep text st i).inQuotes = st.inQuotes
    ∧ (flushStep text st i).escapeNext = st.escapeNext
    ∧ (flushStep text st i).selector = st.selector
    ∧ (flushStep text st i).jsonObject = st.jsonObject
    ∧ (flushStep text st i).jsonArray = st.jsonArray := by
  unfold flushStep
  split_ifs <;> simp_all

/-- **C5.**  The claim: in the tokenizer an unescaped, unquoted space is
a token separator exactly when not inside a string, not inside a
selector filter, and both the object- and array-nesting counters are
zero; consequently a braced JSON literal with internal spaces stays one
token and a bracketed selector stays one token.  First conjunct: on a
space with `escapeNext` false (and the counters non-negative, which
holds in every reachable scanner state), the scan step starts a new
segment at `i + 1` — flushing a pending non-blank segment into the
result — iff the four conditions hold, and otherwise leaves the state
untouched.  The remaining conjuncts are the two quoted examples. -/
theorem c5_space_separator_condition :
    (∀ (text : List Char) (i : Nat) (st : ScanState),
      st.escapeNext = false → 0 ≤ st.jsonObject → 0 ≤ st.jsonArray →
      ((st.inQuotes = false ∧ st.selector = false ∧ st.jsonObject = 0 ∧ st.jsonArray = 0 →
          (scanStep text st i ' ').start = i + 1
            ∧ (st.start < i → trimL ((text.drop st.start).take (i - st.start)) ≠ [] →
                (scanStep text st i ' ').result =
                  st.result ++ [trimL ((text.drop st.start).take (i - st.start))]))
        ∧ (¬ (st.inQuotes = false ∧ st.selector = false ∧ st.jsonObject = 0 ∧ st.jsonArray = 0) →
          scanStep text st i ' ' = st)))
    ∧ extractCommand "say \x7b\"text\":\"a b c\"\x7d" = ["say", "\x7b\"text\":\"a b c\"\x7d"]
    ∧ extractCommand "kill @e[type=Zombie,tag=x]" = ["kill", "@e[type=Zombie,tag=x]"] := by
  refine ⟨?_, by decide, by decide⟩
  intro text i st he hjo hja
  have hplain : bracketStep st ' ' = st :=
    bracketStep_plain st ' ' (by decide) (by decide) (by decide) (by decide)
  constructor
  · rintro ⟨hq, hs, ho, ha⟩
    unfold scanStep
    rw [if_neg (by simp [he]), if_neg (by decide), if_neg (by decide),
      if_pos (by rw [hplain]; exact ⟨rfl, by simp [hq, hs, ho, ha]⟩)]
    refine ⟨rfl, ?_⟩
    intro hlt hne
    show (flushStep text (bracketStep st ' ') i).result = _
    rw [hplain]
    unfold flushStep
    rw [if_pos hlt, if_pos hne]
  · intro hcond
    have hspec : st.inQuotes = true ∨ st.selector = true ∨ st.jsonObject > 0 ∨ st.jsonArray > 0 := by
      cases hb1 : st.inQuotes
      · cases hb2 : st.selector
        · right; right
          by_cases hoz : st.jsonObject = 0
          · by_cases haz : st.jsonArray = 0
            · exact absurd ⟨hb1, hb2, hoz, haz⟩ hcond
            · right; omega
          · left; omega
        · right; left; rfl
      · left; rfl
    unfold scanStep
    rw [if_neg (by simp [he]), if_neg (by decide), if_neg (by decide),
      if_neg (by rw [hplain]; rintro ⟨-, hns⟩; exact hns hspec)]
    exact hplain

/-- Witness for `c5_space_separator_condition`: at a concrete state the
space splits (start moves past it) when the four conditions hold, and
is swallowed (state unchanged) inside a JSON object. -/
theorem c5_space_separator_condition_witness :
    (scanStep ['a', ' '] initScanState 1 ' ').start = 1 + 1
    ∧ scanStep ['{', ' '] { initScanState with jsonObject := 1 } 1 ' '
        = { initScanState with jsonObject := 1 } := by
  constructor
  · exact ((c5_space_separator_condition.1 ['a', ' '] 1 initScanState
      (by decide) (by decide) (by decide)).1 (by decide)).1
  · exact (c5_space_separator_condition.1 ['{', ' '] 1 { initScanState with jsonObject := 1 }
      (by decide) (by decide) (by decide)).2 (by decide)

/-- One scan step keeps the nesting counters non-negative (the source
clamps decrements with `Math.max(0, …)`). -/
theorem scanStep_counters (text : List Char) (st : ScanState) (i : Nat) (c : Char)
    (h1 : 0 ≤ st.jsonObject) (h2 : 0 ≤ st.jsonArray) :
    0 ≤ (scanStep text st i c).jsonObject ∧ 0 ≤ (scanStep text st i c).jsonArray := by
  have hb := bracketStep_counters st c h1 h2
  have hf := flushStep_proj text (bracketStep st c) i
  unfold scanStep
  split_ifs <;> simp_all

/-- **C7.**  The claim: the tokenizer never throws on malformed input —
its nesting counters are clamped at zero, an unterminated quoted or
bracketed region continues to end of line, and the call always returns
the tokens that were successfully delimited.  The embedding is a total
function by construction; the first conjunct proves that from any
scanner state with non-negative counters every further state of the
scan (hence every state reachable from the initial one, on any input
and any prefix) keeps both nesting counters non-negative.  The
remaining conjuncts evaluate the tokenizer on malformed inputs: an
unterminated quote is carried to end of line as part of the final
token, an unterminated selector bracket likewise, and surplus closing
braces are clamped so later spaces still separate tokens. -/
theorem c7_tokenizer_total :
    (∀ (text rest : List Char) (i : Nat) (st : ScanState),
      0 ≤ st.jsonObject → 0 ≤ st.jsonArray →
      0 ≤ (scanAux text i rest st).jsonObject ∧ 0 ≤ (scanAux text i rest st).jsonArray)
    ∧ extractCommand "say \"a b" = ["say", "\"a b"]
    ∧ extractCommand "kill @e[type=Zombie" = ["kill", "@e[type=Zombie"]
    ∧ extractCommand "a \x7d\x7d b" = ["a", "\x7d\x7d", "b"] := by
  refine ⟨?_, by decide, by decide, by decide⟩
  intro text rest
  induction rest with
  | nil => intro i st h1 h2; exact ⟨h1, h2⟩
  | cons c cs ih =>
    intro i st h1 h2
    have hstep := scanStep_counters text st i c h1 h2
    exact ih (i + 1) (scanStep text st i c) hstep.1 hstep.2

/-- Witness for `c7_tokenizer_total`: the invariant applied at a
concrete malformed input (unbalanced opening brackets). -/
theorem c7_tokenizer_total_witness :
    (0 : Int) ≤ (scanAux ['[', '{'] 0 ['[', '{'] initScanState).jsonObject
    ∧ (0 : Int) ≤ (scanAux ['[', '{'] 0 ['[', '{'] initScanState).jsonArray := by
  exact c7_tokenizer_total.1 ['[', '{'] ['[', '{'] 0 initScanState (by decide) (by decide)

/-- When `isExecuteComplete` fails, `getExecuteParamStage` is the index
of the first missing-or-blank slot. -/
theorem getExecuteParamStage_firstBlank (commands : List String)
    (h : isExecuteComplete commands = false) :
    ∃ s : Nat, getExecuteParamStage commands = (s : Int) ∧ s < EXECUTE_PARAM_COUNT
      ∧ blankSlot commands s ∧ ∀ j, j < s → ¬ blankSlot commands j := by
  have hblank : ∀ j : Nat, blankSlot commands j ↔
      (decide (commands.length ≤ j + 1) || (trimS (commands.getD (j + 1) "")).isEmpty) = true := by
    intro j
    simp [blankSlot, String.isEmpty_iff]
  unfold getExecuteParamStage
  rw [show List.range EXECUTE_PARAM_COUNT = [0, 1, 2, 3] from rfl]
  by_cases h0 : (decide (commands.length ≤ 0 + 1) || (trimS (commands.getD (0 + 1) "")).isEmpty) = true
  · have hf : List.find?
        (fun stage => decide (commands.length ≤ stage + 1) || (trimS (commands.getD (stage + 1) "")).isEmpty)
        [0, 1, 2, 3] = some 0 := by
      simp only [List.find?, h0]
    rw [hf]
    exact ⟨0, rfl, by simp only [EXECUTE_PARAM_COUNT]; omega, (hblank 0).2 h0, by omega⟩
  · rw [Bool.not_eq_true] at h0
    by_cases h1 : (decide (commands.length ≤ 1 + 1) || (trimS (commands.getD (1 + 1) "")).isEmpty) = true
    · have hf : List.find?
          (fun stage => decide (commands.length ≤ stage + 1) || (trimS (commands.getD (stage + 1) "")).isEmpty)
          [0, 1, 2, 3] = some 1 := by
        simp only [List.find?, h0, h1]
      rw [hf]
      refine ⟨1, rfl, by simp only [EXECUTE_PARAM_COUNT]; omega, (hblank 1).2 h1, ?_⟩
      intro j hj
      interval_cases j
      intro hb
      have := (hblank _).1 hb
      simp_all
      omega
    · rw [Bool.not_eq_true] at h1
      by_cases h2 : (decide (commands.length ≤ 2 + 1) || (trimS (commands.getD (2 + 1) "")).isEmpty) = true
      · have hf : List.find?
            (fun stage => decide (commands.length ≤ stage + 1) || (trimS (commands.getD (stage + 1) "")).isEmpty)
            [0, 1, 2, 3] = some 2 := by
          simp only [List.find?, h0, h1, h2]
        rw [hf]
        refine ⟨2, rfl, by simp only [EXECUTE_PARAM_COUNT]; omega, (hblank 2).2 h2, ?_⟩
        intro j hj
        interval_cases j <;> (intro hb; have := (hblank _).1 hb; simp_all; omega)
      · rw [Bool.not_eq_true] at h2
        by_cases h3 : (decide (commands.length ≤ 3 + 1) || (trimS (commands.getD (3 + 1) "")).isEmpty) = true
        · have hf : List.find?
              (fun stage => decide (commands.length ≤ stage + 1) || (trimS (commands.getD (stage + 1) "")).isEmpty)
              [0, 1, 2, 3] = some 3 := by
            simp only [List.find?, h0, h1, h2, h3]
          rw [hf]
          refine ⟨3, rfl, by simp only [EXECUTE_PARAM_COUNT]; omega, (hblank 3).2 h3, ?_⟩
          intro j hj
          interval_cases j <;> (intro hb; have := (hblank _).1 hb; simp_all; omega)
        · exfalso
          rw [Bool.not_eq_true] at h3
          have hsplit : ∀ j : Nat,
              (decide (commands.length ≤ j + 1) || (trimS (commands.getD (j + 1) "")).isEmpty) = false →
              ¬ commands.length ≤ j + 1 ∧ trimS (commands.getD (j + 1) "") ≠ "" := by
            intro j hj
            obtain ⟨ha, hb⟩ := Bool.or_eq_false_iff.mp hj
            refine ⟨by simpa using ha, fun heq => ?_⟩
            rw [heq] at hb
            exact absurd hb (by decide)
          have H0 := hsplit 0 h0
          have H1 := hsplit 1 h1
          have H2 := hsplit 2 h2
          have H3 := hsplit 3 h3
          have hne : ∀ (s : String), s ≠ "" → s.isEmpty = false := by
            intro s hs
            rw [Bool.eq_false_iff]
            intro hemp
            exact hs ((String.isEmpty_iff s).mp (by simpa using hemp))
          have hcomp : isExecuteComplete commands = true := by
            unfold isExecuteComplete
            rw [if_neg (by
              show ¬ (commands.length < 1 + EXECUTE_PARAM_COUNT)
              have := H3.1
              simp only [EXECUTE_PARAM_COUNT]
              omega)]
            rw [show List.range EXECUTE_PARAM_COUNT = [0, 1, 2, 3] from rfl]
            simp only [List.all_cons, List.all_nil, Bool.and_eq_true, Bool.and_true,
              Bool.not_eq_true']
            exact ⟨hne _ H0.2, hne _ H1.2, hne _ H2.2, hne _ H3.2⟩
          rw [hcomp] at h
          exact Bool.false_ne_true h.symm

/-- **C4.**  The claim: the resolver returns a non-`execute` head
unchanged, marked complete and not wrapped; an `execute` with a
missing or blank slot is returned incomplete with `paramStage` the
index (0..3) of the first missing-or-blank slot — with only 2 of 4
slots filled the stage is 2; a complete `execute` re-applies the same
check after its five tokens (unbounded nesting). -/
theorem c4_wrapper_resolver :
    (∀ commands : List String,
      ((commands.head?.map toLowerS) ≠ some "execute" →
        findActiveCommand commands =
          { isExecute := false, isComplete := true, currentCommands := commands,
            paramStage := -1 })
      ∧ ((commands.head?.map toLowerS) = some "execute" → isExecuteComplete commands = false →
        findActiveCommand commands =
          { isExecute := true, isComplete := false, currentCommands := commands,
            paramStage := getExecuteParamStage commands }
        ∧ ∃ s : Nat, getExecuteParamStage commands = (s : Int) ∧ s < EXECUTE_PARAM_COUNT
            ∧ blankSlot commands s ∧ ∀ j, j < s → ¬ blankSlot commands j)
      ∧ ((commands.head?.map toLowerS) = some "execute" → isExecuteComplete commands = true →
        findActiveCommand commands = findActiveCommand (commands.drop (1 + EXECUTE_PARAM_COUNT))))
    ∧ (findActiveCommand ["execute", "@a", "~"]).isComplete = false
    ∧ (findActiveCommand ["execute", "@a", "~"]).paramStage = 2 := by
  refine ⟨?_, by decide, by decide⟩
  intro commands
  match commands with
  | c0 :: c1 :: c2 :: c3 :: c4 :: rest =>
    refine ⟨?_, ?_, ?_⟩
    · intro hne
      have hl : ¬ toLowerS c0 = "execute" := by simpa using hne
      simp [findActiveCommand, hl]
    · intro hhead hinc
      have hl : toLowerS c0 = "execute" := by simpa using hhead
      exact ⟨by simp [findActiveCommand, hl, hinc], getExecuteParamStage_firstBlank _ hinc⟩
    · intro hhead hcomp
      have hl : toLowerS c0 = "execute" := by simpa using hhead
      simp [findActiveCommand, hl, hcomp, EXECUTE_PARAM_COUNT]
  | [] =>
    refine ⟨fun _ => by simp [findActiveCommand], ?_, ?_⟩
    · intro hhead
      simp at hhead
    · intro hhead
      simp at hhead
  | [c0] =>
    refine ⟨?_, ?_, ?_⟩
    · intro hne
      have hl : ¬ toLowerS c0 = "execute" := by simpa using hne
      simp [findActiveCommand, hl]
    · intro hhead hinc
      have hl : toLowerS c0 = "execute" := by simpa using hhead
      exact ⟨by simp [findActiveCommand, hl], getExecuteParamStage_firstBlank _ hinc⟩
    · intro hhead hcomp
      exact absurd hcomp (by simp [isExecuteComplete, EXECUTE_PARAM_COUNT])
  | [c0, c1] =>
    refine ⟨?_, ?_, ?_⟩
    · intro hne
      have hl : ¬ toLowerS c0 = "execute" := by simpa using hne
      simp [findActiveCommand, hl]
    · intro hhead hinc
      have hl : toLowerS c0 = "execute" := by simpa using hhead
      exact ⟨by simp [findActiveCommand, hl], getExecuteParamStage_firstBlank _ hinc⟩
    · intro hhead hcomp
      exact absurd hcomp (by simp [isExecuteComplete, EXECUTE_PARAM_COUNT])
  | [c0, c1, c2] =>
    refine ⟨?_, ?_, ?_⟩
    · intro hne
      have hl : ¬ toLowerS c0 = "execute" := by simpa using hne
      simp [findActiveCommand, hl]
    · intro hhead hinc
      have hl : toLowerS c0 = "execute" := by simpa using hhead
      exact ⟨by simp [findActiveCommand, hl], getExecuteParamStage_firstBlank _ hinc⟩
    · intro hhead hcomp
      exact absurd hcomp (by simp [isExecuteComplete, EXECUTE_PARAM_COUNT])
  | [c0, c1, c2, c3] =>
    refine ⟨?_, ?_, ?_⟩
    · intro hne
      have hl : ¬ toLowerS c0 = "execute" := by simpa using hne
      simp [findActiveCommand, hl]
    · intro hhead hinc
      have hl : toLowerS c0 = "execute" := by simpa using hhead
      exact ⟨by simp [findActiveCommand, hl], getExecuteParamStage_firstBlank _ hinc⟩
    · intro hhead hcomp
      exact absurd hcomp (by simp [isExecuteComplete, EXECUTE_PARAM_COUNT])

/-- Witness for `c4_wrapper_resolver`: the three clauses applied at
concrete token lists. -/
theorem c4_wrapper_resolver_witness :
    findActiveCommand ["say", "hi"] =
      { isExecute := false, isComplete := true, currentCommands := ["say", "hi"],
        paramStage := -1 }
    ∧ findActiveCommand ["execute", "@a", "~"] =
      { isExecute := true, isComplete := false, currentCommands := ["execute", "@a", "~"],
        paramStage := getExecuteParamStage ["execute", "@a", "~"] }
    ∧ findActiveCommand ["execute", "@a", "~", "~", "~", "say", "x"] =
      findActiveCommand (["execute", "@a", "~", "~", "~", "say", "x"].drop
        (1 + EXECUTE_PARAM_COUNT)) := by
  refine ⟨(c4_wrapper_resolver.1 ["say", "hi"]).1 (by decide),
    ((c4_wrapper_resolver.1 ["execute", "@a", "~"]).2.1 (by decide) (by decide)).1,
    (c4_wrapper_resolver.1 ["execute", "@a", "~", "~", "~", "say", "x"]).2.2
      (by decide) (by decide)⟩

/-- `splitOnColon` produces one more part than there are colons. -/
theorem splitOnColon_length (l : List Char) :
    (splitOnColon l).length = l.count ':' + 1 := by
  induction l with
  | nil => rfl
  | cons c cs ih =>
    by_cases hc : c = ':'
    · simp [splitOnColon, hc, List.count_cons, ih]
    · cases hs : splitOnColon cs with
      | nil => rw [hs] at ih; simp at ih
      | cons t ts =>
        rw [hs] at ih
        simp only [splitOnColon, hc, if_false, ite_false, hs, List.length_cons,
          List.count_cons] at ih ⊢
        rw [if_neg (by simp [hc])]
        omega

/-- With no colon the split is the whole string. -/
theorem splitOnColon_count_zero {l : List Char} (h : l.count ':' = 0) :
    splitOnColon l = [l] := by
  induction l with
  | nil => rfl
  | cons c cs ih =>
    have hc : ¬ c = ':' := by
      intro hc
      rw [List.count_cons] at h
      simp [hc] at h
    have hcs : cs.count ':' = 0 := by
      rw [List.count_cons] at h
      omega
    simp [splitOnColon, hc, ih hcs]

/-- With exactly one colon the split is the part before the first colon
and the part after it. -/
theorem splitOnColon_count_one {l : List Char} (h : l.count ':' = 1) :
    splitOnColon l =
      [l.takeWhile (fun c => decide (c ≠ ':')),
        (l.dropWhile (fun c => decide (c ≠ ':'))).drop 1] := by
  induction l with
  | nil => simp at h
  | cons c cs ih =>
    by_cases hc : c = ':'
    · have hcs : cs.count ':' = 0 := by
        rw [List.count_cons] at h
        simp [hc] at h
        omega
      subst hc
      simp [splitOnColon, splitOnColon_count_zero hcs, List.takeWhile, List.dropWhile]
    · have hcs : cs.count ':' = 1 := by
        rw [List.count_cons] at h
        simp [hc] at h
        omega
      rw [show splitOnColon (c :: cs) = (c :: (splitOnColon cs).headD []) :: (splitOnColon cs).tail from ?_]
      · rw [ih hcs]
        simp [List.takeWhile, List.dropWhile, hc]
      · rw [ih hcs]
        simp [splitOnColon, hc, ih hcs]

/-- **C6 (amended).**  The resolver splits a resource name at the first
colon with default namespace `minecraft` when there is none, trims both
parts and rejects an empty namespace or path — but, unlike the original
claim, an input with more than one colon is a format error and resolves
to `null` (so `resolve "a:b:c" = null`, not `{a, b:c}`); the listed
concrete examples hold as corrected. -/
theorem c6_resource_path_resolver_amended :
    (∀ s : String,
      (s.toList.count ':' = 0 →
        parseResourcePath s =
          if trimL s.toList = [] then none
          else some ("minecraft", String.mk (trimL s.toList)))
      ∧ (s.toList.count ':' = 1 →
        parseResourcePath s =
          (let before := s.toList.takeWhile (fun c => decide (c ≠ ':'))
           let after := (s.toList.dropWhile (fun c => decide (c ≠ ':'))).drop 1
           if trimL before = [] ∨ trimL after = [] then none
           else some (String.mk (trimL before), String.mk (trimL after))))
      ∧ (2 ≤ s.toList.count ':' → parseResourcePath s = none))
    ∧ parseResourcePath "func" = some ("minecraft", "func")
    ∧ parseResourcePath "ns:sub/func" = some ("ns", "sub/func")
    ∧ parseResourcePath "a:b:c" = none
    ∧ parseResourcePath ":" = none
    ∧ parseResourcePath "ns:" = none := by
  refine ⟨?_, by decide, by decide, by decide, by decide, by decide⟩
  intro s
  refine ⟨?_, ?_, ?_⟩
  · intro h0
    unfold parseResourcePath
    rw [splitOnColon_count_zero h0]
    by_cases htr : trimL s.toList = []
    · simp [htr]
    · simp [htr]
  · intro h1
    unfold parseResourcePath
    rw [splitOnColon_count_one h1]
    by_cases hb : trimL (s.toList.takeWhile (fun c => decide (c ≠ ':'))) = [] <;>
      by_cases ha : trimL ((s.toList.dropWhile (fun c => decide (c ≠ ':'))).drop 1) = [] <;>
      · try simp only [ne_eq, decide_not, List.drop_one, String.toList] at hb ha
        simp [hb, ha]
  · intro h2
    unfold parseResourcePath
    rw [if_pos]
    rw [splitOnColon_length]
    omega

/-- Witness for `c6_resource_path_resolver_amended`: the clauses applied
at concrete names with zero, one and two colons. -/
theorem c6_resource_path_resolver_amended_witness :
    parseResourcePath "func" =
      (if trimL "func".toList = [] then none
        else some ("minecraft", String.mk (trimL "func".toList)))
    ∧ parseResourcePath "a:b:c" = none := by
  exact ⟨(c6_resource_path_resolver_amended.1 "func").1 (by decide),
    (c6_resource_path_resolver_amended.1 "a:b:c").2.2 (by decide)⟩

/-- `ensureCache` does not change what `getCache` sees. -/
theorem getCache_ensureCache (uri : String) (st : IndexState) :
    getCache uri (ensureCache uri st) = getCache uri st := by
  unfold ensureCache getCache
  split
  · rfl
  · rename_i hnone
    simp only [mapGet_mapSet_self]
    rw [Option.not_isSome_iff_eq_none.mp hnone]
    rfl

/-- Core of C8: under coherence, `getCommandSegments` returns the fresh
tokenization of the line's text and preserves coherence. -/
theorem getCommandSegments_coherent (document : List String) (uri : String)
    (lineNumber : Nat) (st : IndexState)
    (h : docCoherent document (getCache uri st)) :
    (getCommandSegments document uri lineNumber st).1 =
      extractCommand (document.getD lineNumber "")
    ∧ docCoherent document (getCache uri (getCommandSegments document uri lineNumber st).2) := by
  unfold getCommandSegments
  have hens := getCache_ensureCache uri st
  cases hhit : mapGet lineNumber (getCache uri (ensureCache uri st)).lineCache with
  | some segs =>
    simp only [hhit]
    rw [hens] at hhit
    refine ⟨h lineNumber segs hhit, ?_⟩
    rw [hens]
    exact h
  | none =>
    simp only [hhit]
    refine ⟨trivial, ?_⟩
    have hc2 : ∀ (X : DocCache),
        getCache uri { ensureCache uri st with
          documentCache := mapSet uri X (ensureCache uri st).documentCache } = X := by
      intro X
      unfold getCache
      simp [mapGet_mapSet_self]
    rw [hc2]
    intro l segs2 hget
    simp only at hget
    by_cases hl : l = lineNumber
    · subst hl
      rw [mapGet_mapSet_self] at hget
      cases hget
      rfl
    · rw [mapGet_mapSet_ne _ _ hl] at hget
      split at hget
      · split at hget
        · rename_i o ho
          simp only at hget
          by_cases hlo : l = o
          · subst hlo
            rw [mapGet_mapDelete_self] at hget
            cases hget
          · rw [mapGet_mapDelete_ne _ hlo] at hget
            exact h l segs2 (by rw [← hens]; exact hget)
        · exact h l segs2 (by rw [← hens]; exact hget)
      · exact h l segs2 (by rw [← hens]; exact hget)

/-- **C8.**  The claim: the cached tokenization entry point is
cache-transparent — for an unchanged document line the segments served
through the per-document line cache equal a fresh direct tokenization
of the line's text, tokenizing an unchanged line twice yields identical
results (the second, warm call returns exactly what the first, cold
call returned), and the returned state stays coherent so the cache can
be dropped and rebuilt without changing any result. -/
theorem c8_cache_transparent (document : List String) (uri : String) (lineNumber : Nat)
    (st : IndexState) (h : docCoherent document (getCache uri st)) :
    (getCommandSegments document uri lineNumber st).1 =
      extractCommand (document.getD lineNumber "")
    ∧ (getCommandSegments document uri lineNumber
        ((getCommandSegments document uri lineNumber st).2)).1
      = (getCommandSegments document uri lineNumber st).1
    ∧ docCoherent document (getCache uri (getCommandSegments document uri lineNumber st).2) := by
  obtain ⟨h1, h2⟩ := getCommandSegments_coherent document uri lineNumber st h
  refine ⟨h1, ?_, h2⟩
  rw [(getCommandSegments_coherent document uri lineNumber _ h2).1, h1]

/-- Witness for `c8_cache_transparent`: a one-line document in a fresh
(empty, hence vacuously coherent) state; the cold call returns the
direct tokenization and the warm call repeats it. -/
theorem c8_cache_transparent_witness :
    (getCommandSegments ["say hi"] "A" 0 emptyIndexState).1 =
      extractCommand (["say hi"].getD 0 "")
    ∧ (getCommandSegments ["say hi"] "A" 0
        ((getCommandSegments ["say hi"] "A" 0 emptyIndexState).2)).1
      = (getCommandSegments ["say hi"] "A" 0 emptyIndexState).1 := by
  have h := c8_cache_transparent ["say hi"] "A" 0 emptyIndexState (by
    intro l segs hget
    simp [getCache, emptyIndexState, emptyDocCache, mapGet] at hget)
  exact ⟨h.1, h.2.1⟩

/-!
## C10: every tokenizer output token except possibly the last is
non-empty and self-trimmed
-/

/-- `trimL` written through Mathlib's `rdropWhile`. -/
theorem trimL_eq_rdropWhile (l : List Char) :
    trimL l = List.rdropWhile isWsChar (l.dropWhile isWsChar) := rfl

/-- The head of a `dropWhile` result does not satisfy the predicate. -/
theorem dropWhile_head_false {p : Char → Bool} :
    ∀ {l : List Char} {c : Char} {cs : List Char},
      l.dropWhile p = c :: cs → p c = false := by
  intro l
  induction l with
  | nil => intro c cs h; cases h
  | cons a as ih =>
    intro c cs h
    by_cases hp : p a
    · rw [List.dropWhile_cons_of_pos hp] at h
      exact ih h
    · rw [List.dropWhile_cons_of_neg hp] at h
      cases h
      simpa using hp

/-- `dropWhile` fixes a list whose head fails the predicate. -/
theorem dropWhile_eq_self_of_head {p : Char → Bool} {l : List Char}
    (h : ∀ c cs, l = c :: cs → p c = false) : l.dropWhile p = l := by
  cases l with
  | nil => rfl
  | cons a as =>
    rw [List.dropWhile_cons_of_neg]
    simp [h a as rfl]

/-- `trimL` is idempotent. -/
theorem trimL_trimL (l : List Char) : trimL (trimL l) = trimL l := by
  have h1 : (List.rdropWhile isWsChar (l.dropWhile isWsChar)).dropWhile isWsChar
      = List.rdropWhile isWsChar (l.dropWhile isWsChar) := by
    apply dropWhile_eq_self_of_head
    intro c cs hY
    obtain ⟨t, ht⟩ := List.rdropWhile_prefix isWsChar (l.dropWhile isWsChar)
    rw [hY] at ht
    exact dropWhile_head_false ht.symm
  calc trimL (trimL l)
      = List.rdropWhile isWsChar
          ((List.rdropWhile isWsChar (l.dropWhile isWsChar)).dropWhile isWsChar) := rfl
    _ = List.rdropWhile isWsChar (List.rdropWhile isWsChar (l.dropWhile isWsChar)) := by
        rw [h1]
    _ = List.rdropWhile isWsChar (l.dropWhile isWsChar) := List.rdropWhile_idempotent _ _
    _ = trimL l := rfl

/-- `trimL` fixes a list with no whitespace characters. -/
theorem trimL_eq_self_of_all {l : List Char} (h : ∀ c ∈ l, isWsChar c = false) :
    trimL l = l := by
  have h1 : l.dropWhile isWsChar = l :=
    dropWhile_eq_self_of_head (fun c cs hl => h c (by rw [hl]; exact List.mem_cons_self c cs))
  rw [trimL_eq_rdropWhile, h1]
  rw [List.rdropWhile_eq_self_iff]
  intro hl
  rw [h _ (List.getLast_mem hl)]
  simp

/-- A scan step either leaves the result alone or appends one non-empty
trimmed segment. -/
theorem scanStep_result_cases (text : List Char) (st : ScanState) (i : Nat) (c : Char) :
    (scanStep text st i c).result = st.result ∨
    ∃ seg, seg ≠ [] ∧ trimL seg = seg ∧
      (scanStep text st i c).result = st.result ++ [seg] := by
  have hbr := (bracketStep_proj st c).1
  unfold scanStep
  split_ifs
  · left; rfl
  · left; rfl
  · left; rfl
  · show (flushStep text (bracketStep st c) i).result = st.result ∨ _
    unfold flushStep
    split_ifs with hlt hne
    · right
      exact ⟨_, hne, trimL_trimL _, by simp [hbr]⟩
    · left; exact hbr
    · left; exact hbr
  · left; exact hbr

/-- One scan step only appends non-empty trimmed segments to the
result. -/
theorem scanStep_result_good (text : List Char) (st : ScanState) (i : Nat) (c : Char)
    (h : ∀ x ∈ st.result, goodSeg x) :
    ∀ x ∈ (scanStep text st i c).result, goodSeg x := by
  intro x hx
  rcases scanStep_result_cases text st i c with hc | ⟨seg, hne, htr, hc⟩
  · exact h x (hc ▸ hx)
  · rw [hc] at hx
    simp only [List.mem_append, List.mem_singleton] at hx
    rcases hx with hx | hx
    · exact h x hx
    · subst hx
      exact ⟨hne, htr⟩

/-- The scan loop preserves the segment invariant. -/
theorem scanAux_result_good (rest : List Char) :
    ∀ (text : List Char) (i : Nat) (st : ScanState),
      (∀ x ∈ st.result, goodSeg x) →
      ∀ x ∈ (scanAux text i rest st).result, goodSeg x := by
  induction rest with
  | nil => intro text i st h; exact h
  | cons c cs ih =>
    intro text i st h
    exact ih text (i + 1) (scanStep text st i c) (scanStep_result_good text st i c h)

/-- `extractCommandL` with its `let` bindings expanded (for proofs). -/
theorem extractCommandL_eq (t : List Char) :
    extractCommandL t =
      (if 0 < t.length ∧ t.getLast? = some ' '
          ∧ t.length ≤ (scanAux t 0 t initScanState).start then
        (if trimL (t.drop (scanAux t 0 t initScanState).start) ≠ [] then
          (scanAux t 0 t initScanState).result ++
            [trimL (t.drop (scanAux t 0 t initScanState).start)]
        else (scanAux t 0 t initScanState).result) ++ [[]]
      else
        (if trimL (t.drop (scanAux t 0 t initScanState).start) ≠ [] then
          (scanAux t 0 t initScanState).result ++
            [trimL (t.drop (scanAux t 0 t initScanState).start)]
        else (scanAux t 0 t initScanState).result)) := rfl

/-- Every element of the tokenized line except possibly the last is a
non-empty trimmed segment (character-list level). -/
theorem extractCommandL_dropLast_good (t : List Char) :
    ∀ seg ∈ (extractCommandL t).dropLast, seg ≠ [] ∧ trimL seg = seg := by
  have hscan : ∀ x ∈ (scanAux t 0 t initScanState).result, goodSeg x :=
    scanAux_result_good t t 0 initScanState (by intro x hx; simp [initScanState] at hx)
  have hgood1 : ∀ x ∈ (if trimL (t.drop (scanAux t 0 t initScanState).start) ≠ [] then
      (scanAux t 0 t initScanState).result ++
        [trimL (t.drop (scanAux t 0 t initScanState).start)]
    else (scanAux t 0 t initScanState).result), goodSeg x := by
    intro x hx
    split at hx
    · simp only [List.mem_append, List.mem_singleton] at hx
      rcases hx with hx | hx
      · exact hscan x hx
      · subst hx
        exact ⟨by assumption, trimL_trimL _⟩
    · exact hscan x hx
  intro seg hseg
  rw [extractCommandL_eq] at hseg
  split at hseg
  · rw [List.dropLast_concat] at hseg
    exact hgood1 seg hseg
  · exact hgood1 seg (List.dropLast_sublist _ |>.subset hseg)

/-- **C10.**  The claim: in the tokenizer's output every element except
possibly the last is a non-empty string with no leading or trailing
whitespace (each non-final element equals its own trim), so an empty
token can occur only in final position (the trailing-separator
marker). -/
theorem c10_output_shape (s : String) :
    ∀ x ∈ (extractCommand s).dropLast, x ≠ "" ∧ trimS x = x := by
  intro x hx
  unfold extractCommand at hx
  rw [← List.map_dropLast] at hx
  obtain ⟨seg, hseg, rfl⟩ := List.mem_map.mp hx
  obtain ⟨hne, htr⟩ := extractCommandL_dropLast_good s.toList seg hseg
  constructor
  · intro hcon
    apply hne
    have : (String.mk seg).data = ("" : String).data := by rw [hcon]
    simpa using this
  · show String.mk (trimL (String.mk seg).toList) = String.mk seg
    have : (String.mk seg).toList = seg := rfl
    rw [this, htr]

/-- Witness for `c10_output_shape`: a concrete tokenization with a
trailing separator space — the non-final elements are non-empty and
self-trimmed. -/
theorem c10_output_shape_witness :
    "say" ∈ (extractCommand "say hi ").dropLast
    ∧ ("say" ≠ "" ∧ trimS "say" = "say") := by
  refine ⟨by decide, c10_output_shape "say hi " "say" (by decide)⟩

/-- A good character in a neutral state changes nothing. -/
theorem scanStep_plain_char (text : List Char) (st : ScanState) (i : Nat) (c : Char)
    (hc : goodChar c) (hn : neutralState st) : scanStep text st i c = st := by
  obtain ⟨hcq, hcb, hc1, hc2, hc3, hc4, hcw⟩ := hc
  obtain ⟨hq, he, hs, ho, ha⟩ := hn
  have hplain : bracketStep st c = st := bracketStep_plain st c hc1 hc2 hc3 hc4
  have hcsp : ¬ c = ' ' := by
    intro hcon
    rw [hcon] at hcw
    exact absurd hcw (by decide)
  unfold scanStep
  rw [if_neg (by simp [he]), if_neg hcb, if_neg hcq,
    if_neg (by rintro ⟨hcon, -⟩; exact hcsp hcon)]
  exact hplain

/-- A space in a neutral state flushes the pending segment and starts
the next one after the space. -/
theorem scanStep_space_neutral (text : List Char) (st : ScanState) (i : Nat)
    (hn : neutralState st) :
    scanStep text st i ' ' = { flushStep text st i with start := i + 1 } := by
  obtain ⟨hq, he, hs, ho, ha⟩ := hn
  have hplain : bracketStep st ' ' = st :=
    bracketStep_plain st ' ' (by decide) (by decide) (by decide) (by decide)
  unfold scanStep
  rw [if_neg (by simp [he]), if_neg (by decide), if_neg (by decide),
    if_pos (by rw [hplain]; exact ⟨rfl, by simp [hq, hs, ho, ha]⟩), hplain]

/-- Scanning a run of good characters in a neutral state changes
nothing (and advances the index past them). -/
theorem scanAux_plain_token (tok : List Char) :
    ∀ (text rest : List Char) (i : Nat) (st : ScanState),
      (∀ c ∈ tok, goodChar c) → neutralState st →
      scanAux text i (tok ++ rest) st = scanAux text (i + tok.length) rest st := by
  induction tok with
  | nil => intro text rest i st _ _; simp
  | cons c cs ih =>
    intro text rest i st hg hn
    show scanAux text (i + 1) (cs ++ rest) (scanStep text st i c) = _
    rw [scanStep_plain_char text st i c (hg c (List.mem_cons_self c cs)) hn]
    rw [ih text rest (i + 1) st (fun x hx => hg x (List.mem_cons_of_mem c hx)) hn]
    congr 1
    simp
    omega

/-- The last token is no longer than the joined line. -/
theorem joinToks_length_ge (ts : List (List Char)) (t : List Char) :
    t.length ≤ (joinToks ts t).length := by
  induction ts with
  | nil => simp [joinToks]
  | cons tok ts ih =>
    simp only [joinToks, List.length_append, List.length_cons]
    omega

/-- Dropping everything before the last token of a joined line leaves
exactly the last token. -/
theorem joinToks_drop (ts : List (List Char)) (t : List Char) :
    (joinToks ts t).drop ((joinToks ts t).length - t.length) = t := by
  induction ts with
  | nil => simp [joinToks]
  | cons tok ts ih =>
    have hge := joinToks_length_ge ts t
    show (tok ++ (' ' :: joinToks ts t)).drop _ = t
    have hlen : (joinToks (tok :: ts) t).length - t.length
        = tok.length + (1 + ((joinToks ts t).length - t.length)) := by
      simp only [joinToks, List.length_append, List.length_cons]
      omega
    rw [hlen, List.drop_append, Nat.add_comm 1 _, List.drop_succ_cons]
    exact ih

/-- Scanning a whole joined line from a neutral state accumulates
exactly the leading tokens and leaves `start` at the beginning of the
last one. -/
theorem scanAux_tokens (ts : List (List Char)) :
    ∀ (t text : List Char) (i : Nat) (st : ScanState),
      (∀ tok ∈ ts, tok ≠ [] ∧ ∀ c ∈ tok, goodChar c) →
      (t ≠ [] ∧ ∀ c ∈ t, goodChar c) →
      neutralState st → st.start = i → text.drop i = joinToks ts t →
      scanAux text i (joinToks ts t) st =
        { st with result := st.result ++ ts,
                  start := i + ((joinToks ts t).length - t.length) } := by
  induction ts with
  | nil =>
    intro t text i st _ _ hn hstart _
    show scanAux text i t st = _
    have h0 : scanAux text i (t ++ []) st = scanAux text (i + t.length) [] st :=
      scanAux_plain_token t text [] i st (fun c hc => by
        have := ‹t ≠ [] ∧ ∀ c ∈ t, goodChar c›
        exact this.2 c hc) hn
    rw [List.append_nil] at h0
    rw [h0]
    show st = _
    simp only [joinToks, List.append_nil, Nat.sub_self, Nat.add_zero]
    cases st
    simp_all
  | cons tok ts ih =>
    intro t text i st hts ht hn hstart hdrop
    obtain ⟨htok, hmore⟩ := hts tok (List.mem_cons_self tok ts)
    show scanAux text i (tok ++ (' ' :: joinToks ts t)) st = _
    rw [scanAux_plain_token tok text (' ' :: joinToks ts t) i st hmore hn]
    show scanAux text (i + tok.length + 1) (joinToks ts t)
        (scanStep text st (i + tok.length) ' ') = _
    rw [scanStep_space_neutral text st (i + tok.length) hn]
    have hflush : flushStep text st (i + tok.length)
        = { st with result := st.result ++ [tok] } := by
      unfold flushStep
      rw [hstart]
      rw [if_pos (by have : 0 < tok.length := List.length_pos.mpr htok; omega)]
      have htake : (text.drop i).take (i + tok.length - i) = tok := by
        rw [hdrop]
        have : i + tok.length - i = tok.length := by omega
        rw [this]
        show (tok ++ (' ' :: joinToks ts t)).take tok.length = tok
        exact List.take_left tok _
      rw [htake]
      rw [trimL_eq_self_of_all (fun c hc => (hmore c hc).2.2.2.2.2.2)]
      rw [if_pos htok]
    have hdrop2 : text.drop (i + tok.length + 1) = joinToks ts t := by
      have h1 : text.drop (i + (tok.length + 1)) = (text.drop i).drop (tok.length + 1) := by
        rw [List.drop_drop]
      have h2 : i + tok.length + 1 = i + (tok.length + 1) := by omega
      rw [h2, h1, hdrop]
      show (tok ++ (' ' :: joinToks ts t)).drop (tok.length + 1) = joinToks ts t
      have h3 : tok.length + 1 = tok.length + 1 := rfl
      rw [show tok.length + 1 = tok.length + 1 from rfl, ← List.singleton_append,
        ← List.append_assoc]
      have h4 : (tok ++ [' ']).length = tok.length + 1 := by simp
      rw [← h4]
      exact List.drop_left (tok ++ [' ']) (joinToks ts t)
    have hihst := ih t text (i + tok.length + 1)
      { st with result := st.result ++ [tok], start := i + tok.length + 1 }
      (fun x hx => hts x (List.mem_cons_of_mem tok hx)) ht
      (by obtain ⟨hq, he, hs, ho, ha⟩ := hn; exact ⟨hq, he, hs, ho, ha⟩)
      rfl hdrop2
    have hst1 : ({ flushStep text st (i + tok.length) with start := i + tok.length + 1 } : ScanState)
        = { st with result := st.result ++ [tok], start := i + tok.length + 1 } := by
      rw [hflush]
    rw [hst1, hihst]
    have hge := joinToks_length_ge ts t
    cases st
    simp [List.append_assoc, joinToks]
    omega

/-- On a line of good tokens joined with single spaces the tokenizer
returns exactly those tokens. -/
theorem extractCommandL_joinToks (ts : List (List Char)) (t : List Char)
    (hts : ∀ tok ∈ ts, tok ≠ [] ∧ ∀ c ∈ tok, goodChar c)
    (ht : t ≠ [] ∧ ∀ c ∈ t, goodChar c) :
    extractCommandL (joinToks ts t) = ts ++ [t] := by
  have hscan := scanAux_tokens ts t (joinToks ts t) 0 initScanState hts ht
    ⟨rfl, rfl, rfl, rfl, rfl⟩ rfl rfl
  have hlen1 : 0 < t.length := List.length_pos.mpr ht.1
  have hlen2 := joinToks_length_ge ts t
  rw [extractCommandL_eq, hscan]
  dsimp only [initScanState]
  rw [Nat.zero_add, joinToks_drop]
  rw [trimL_eq_self_of_all (fun c hc => (ht.2 c hc).2.2.2.2.2.2)]
  rw [if_pos ht.1]
  rw [if_neg (by rintro ⟨-, -, h3⟩; omega)]
  simp

/-- Rebuilding a string from its character list is the identity. -/
theorem stringMk_toList (s : String) : String.mk s.toList = s := rfl

/-- `joinSpace` on a non-empty token list is `joinToks` at the
character-list level. -/
theorem joinSpace_toList (s : String) : ∀ (ss : List String),
    (joinSpace (ss ++ [s])).toList = joinToks (ss.map String.toList) s.toList := by
  intro ss
  induction ss with
  | nil => rfl
  | cons a ss ih =>
    have hsp : (" " : String).data = [' '] := rfl
    cases ss with
    | nil =>
      show (a ++ " " ++ s).toList = a.toList ++ ' ' :: s.toList
      simp [String.toList, String.data_append, hsp]
    | cons b ss2 =>
      show (a ++ " " ++ joinSpace ((b :: ss2) ++ [s])).toList
          = a.toList ++ ' ' :: joinToks ((b :: ss2).map String.toList) s.toList
      rw [← ih]
      simp [String.toList, String.data_append, hsp]

/-- Mapping back to strings after mapping to character lists is the
identity. -/
theorem map_stringMk_toList : ∀ (l : List String),
    (l.map String.toList).map String.mk = l := by
  intro l
  induction l with
  | nil => rfl
  | cons a l ih =>
    simp only [List.map_cons]
    rw [stringMk_toList, ih]

/-- `trimL` fixes a list whose head fails and whose last element fails
the whitespace predicate. -/
theorem trimL_eq_self_of_ends {l : List Char}
    (hhead : ∀ c cs, l = c :: cs → isWsChar c = false)
    (hlast : ∀ (h : l ≠ []), isWsChar (l.getLast h) = false) :
    trimL l = l := by
  have h1 : l.dropWhile isWsChar = l := dropWhile_eq_self_of_head hhead
  rw [trimL_eq_rdropWhile, h1, List.rdropWhile_eq_self_iff]
  intro hl
  rw [hlast hl]
  simp

/-- The first character of a joined line of good tokens is not
whitespace. -/
theorem joinToks_head_good (ts : List (List Char)) (t : List Char)
    (hts : ∀ tok ∈ ts, tok ≠ [] ∧ ∀ c ∈ tok, goodChar c)
    (ht : t ≠ [] ∧ ∀ c ∈ t, goodChar c) :
    ∀ c cs, joinToks ts t = c :: cs → isWsChar c = false := by
  intro c cs h
  cases ts with
  | nil =>
    have hc : c ∈ t := by
      have h' : t = c :: cs := h
      rw [h']
      exact List.mem_cons_self c cs
    exact (ht.2 c hc).2.2.2.2.2.2
  | cons tok ts =>
    obtain ⟨htok, hgood⟩ := hts tok (List.mem_cons_self tok ts)
    cases tok with
    | nil => exact absurd rfl htok
    | cons a tok2 =>
      have h' : a :: (tok2 ++ ' ' :: joinToks ts t) = c :: cs := h
      injection h' with h1 h2
      subst h1
      exact (hgood a (List.mem_cons_self a tok2)).2.2.2.2.2.2

/-- The last character of a joined line belongs to its last token. -/
theorem joinToks_getLast (ts : List (List Char)) (t : List Char) (htne : t ≠ []) :
    ∀ (h : joinToks ts t ≠ []), (joinToks ts t).getLast h ∈ t := by
  induction ts with
  | nil => intro h; exact List.getLast_mem h
  | cons tok ts ih =>
    intro h
    have hJ : joinToks ts t ≠ [] := by
      have h1 : 0 < t.length := List.length_pos.mpr htne
      have h2 := joinToks_length_ge ts t
      exact List.length_pos.mp (by omega)
    have heq : joinToks (tok :: ts) t = (tok ++ [' ']) ++ joinToks ts t := by
      show tok ++ ' ' :: joinToks ts t = _
      rw [List.append_assoc, List.singleton_append]
    have key : ∀ (l : List Char) (hl : l ≠ []),
        l = (tok ++ [' ']) ++ joinToks ts t → l.getLast hl ∈ t := by
      intro l hl hleq
      subst hleq
      rw [List.getLast_append' _ _ hJ]
      exact ih hJ
    exact key _ h heq

/-- `trimL` fixes a joined line of good tokens. -/
theorem trimL_joinToks (ts : List (List Char)) (t : List Char)
    (hts : ∀ tok ∈ ts, tok ≠ [] ∧ ∀ c ∈ tok, goodChar c)
    (ht : t ≠ [] ∧ ∀ c ∈ t, goodChar c) :
    trimL (joinToks ts t) = joinToks ts t :=
  trimL_eq_self_of_ends (joinToks_head_good ts t hts ht)
    (fun h => (ht.2 _ (joinToks_getLast ts t ht.1 h)).2.2.2.2.2.2)

/-- C9: for any line built by concatenating non-empty tokens that
contain no quote, backslash, bracket, brace or whitespace characters
(no structured-data or selector-filter content) with single spaces,
the tokenizer returns exactly those tokens, and re-joining its output
with single spaces reproduces the trimmed original line: no token
boundary is lost or merged. -/
theorem c9_join_roundtrip (ss : List String) (s : String)
    (hss : ∀ tok ∈ ss, tok.toList ≠ [] ∧ ∀ c ∈ tok.toList, goodChar c)
    (hs : s.toList ≠ [] ∧ ∀ c ∈ s.toList, goodChar c) :
    extractCommand (joinSpace (ss ++ [s])) = ss ++ [s] ∧
      joinSpace (extractCommand (joinSpace (ss ++ [s])))
        = trimS (joinSpace (ss ++ [s])) := by
  have hmap : ∀ tok ∈ ss.map String.toList, tok ≠ [] ∧ ∀ c ∈ tok, goodChar c := by
    intro tok htok
    rw [List.mem_map] at htok
    obtain ⟨x, hx, rfl⟩ := htok
    exact hss x hx
  have h1 : extractCommandL ((joinSpace (ss ++ [s])).toList)
      = ss.map String.toList ++ [s.toList] := by
    rw [joinSpace_toList]
    exact extractCommandL_joinToks _ _ hmap hs
  have hfirst : extractCommand (joinSpace (ss ++ [s])) = ss ++ [s] := by
    show (extractCommandL ((joinSpace (ss ++ [s])).toList)).map String.mk = _
    rw [h1, List.map_append, map_stringMk_toList]
    simp [stringMk_toList]
  have htrim : trimS (joinSpace (ss ++ [s])) = joinSpace (ss ++ [s]) := by
    show String.mk (trimL ((joinSpace (ss ++ [s])).toList)) = _
    rw [joinSpace_toList, trimL_joinToks _ _ hmap hs, ← joinSpace_toList,
      stringMk_toList]
  exact ⟨hfirst, by rw [hfirst, htrim]⟩

/-- A concrete instance of the round-trip property. -/
theorem c9_join_roundtrip_witness :
    extractCommand (joinSpace (["tp", "@p"] ++ ["~2"])) = ["tp", "@p"] ++ ["~2"] ∧
      joinSpace (extractCommand (joinSpace (["tp", "@p"] ++ ["~2"])))
        = trimS (joinSpace (["tp", "@p"] ++ ["~2"])) :=
  c9_join_roundtrip ["tp", "@p"] "~2" (by decide) (by decide)

theorem mapDelete_eq_filter {α β : Type} [DecidableEq α] (k : α) (m : List (α × β)) :
    mapDelete k m = m.filter (fun p => decide (p.1 ≠ k)) := by
  induction m with
  | nil => rfl
  | cons p m ih =>
    by_cases hp : p.1 = k
    · simp [mapDelete, hp, ih]
    · simp [mapDelete, hp, ih]

theorem clearLineCache_eq_filter {α : Type} :
    ∀ (ls : List Int) (c : List (Int × α)),
      clearLineCache ls c = c.filter (fun p => decide (¬ p.1 ∈ ls)) := by
  intro ls
  induction ls with
  | nil => intro c; simp [clearLineCache]
  | cons a ls ih =>
    intro c
    show clearLineCache ls (mapDelete a c) = _
    rw [ih, mapDelete_eq_filter, List.filter_filter]
    apply List.filter_congr
    intro p _
    by_cases h1 : p.1 = a <;> by_cases h2 : p.1 ∈ ls <;> simp [h1, h2]

theorem intRange_mem (lo hi x : Int) : x ∈ intRange lo hi ↔ lo ≤ x ∧ x ≤ hi := by
  constructor
  · intro h
    obtain ⟨n, hn, hx⟩ := List.mem_map.mp h
    have hn' : n < (hi + 1 - lo).toNat := List.mem_range.mp hn
    have hx' : lo + (n : Int) = x := hx
    omega
  · rintro ⟨h1, h2⟩
    apply List.mem_map.mpr
    refine ⟨(x - lo).toNat, List.mem_range.mpr (by omega), ?_⟩
    show lo + (((x - lo).toNat : Nat) : Int) = x
    omega

theorem mapGet_eq_none_of_keys {α β : Type} [DecidableEq α] {k : α} :
    ∀ {m : List (α × β)}, (∀ q ∈ m, q.1 ≠ k) → mapGet k m = none := by
  intro m
  induction m with
  | nil => intro h; rfl
  | cons p m ih =>
    intro h
    show (if p.1 = k then some p.2 else mapGet k m) = none
    rw [if_neg (h p (List.mem_cons_self p m))]
    exact ih (fun q hq => h q (List.mem_cons_of_mem p hq))

theorem mapGet_none_forall {α β : Type} [DecidableEq α] {k : α} :
    ∀ {m : List (α × β)}, mapGet k m = none → ∀ q ∈ m, q.1 ≠ k := by
  intro m
  induction m with
  | nil => intro _ q hq; cases hq
  | cons p m ih =>
    intro h q hq
    by_cases hp : p.1 = k
    · rw [show mapGet k (p :: m) = some p.2 from by simp [mapGet, hp]] at h
      cases h
    · rw [show mapGet k (p :: m) = mapGet k m from by simp [mapGet, hp]] at h
      rcases List.mem_cons.mp hq with rfl | hq2
      · exact hp
      · exact ih h q hq2

theorem mapGet_eq_some_mem {α β : Type} [DecidableEq α] {k : α} {v : β} :
    ∀ {m : List (α × β)}, mapGet k m = some v → (k, v) ∈ m := by
  intro m
  induction m with
  | nil => intro h; cases h
  | cons p m ih =>
    intro h
    by_cases hp : p.1 = k
    · rw [show mapGet k (p :: m) = some p.2 from by simp [mapGet, hp]] at h
      injection h with hv
      have hkv : (k, v) = p := by rw [← hp, ← hv]
      rw [hkv]
      exact List.mem_cons_self p m
    · rw [show mapGet k (p :: m) = mapGet k m from by simp [mapGet, hp]] at h
      exact List.mem_cons_of_mem p (ih h)

theorem mapGet_of_mem_nodup {α β : Type} [DecidableEq α] {k : α} {v : β} :
    ∀ {m : List (α × β)}, (m.map Prod.fst).Nodup → (k, v) ∈ m → mapGet k m = some v := by
  intro m
  induction m with
  | nil => intro _ h; cases h
  | cons p m ih =>
    intro hnd hmem
    rw [List.map_cons] at hnd
    obtain ⟨hhead, htail⟩ := List.nodup_cons.mp hnd
    rcases List.mem_cons.mp hmem with heq | hmem2
    · rw [← heq]
      simp [mapGet]
    · have hne : ¬ p.1 = k := by
        intro hc
        exact hhead (List.mem_map.mpr ⟨(k, v), hmem2, hc.symm⟩)
      rw [show mapGet k (p :: m) = mapGet k m from by simp [mapGet, hne]]
      exact ih htail hmem2

theorem mapGet_perm {α β : Type} [DecidableEq α] {m₁ m₂ : List (α × β)}
    (hperm : m₁.Perm m₂) (hnd : (m₁.map Prod.fst).Nodup) (k : α) :
    mapGet k m₁ = mapGet k m₂ := by
  cases hm : mapGet k m₁ with
  | none =>
    have h1 := mapGet_none_forall hm
    exact (mapGet_eq_none_of_keys (fun q hq => h1 q (hperm.mem_iff.mpr hq))).symm
  | some v =>
    have h1 : (k, v) ∈ m₂ := hperm.subset (mapGet_eq_some_mem hm)
    have hnd2 : (m₂.map Prod.fst).Nodup := ((hperm.map Prod.fst).nodup_iff).mp hnd
    exact (mapGet_of_mem_nodup hnd2 h1).symm

theorem mapDelete_length_le {α β : Type} [DecidableEq α] (k : α) (m : List (α × β)) :
    (mapDelete k m).length ≤ m.length := by
  rw [mapDelete_eq_filter]
  exact List.length_filter_le _ m

theorem mapDelete_length_lt {α β : Type} [DecidableEq α] {k : α} :
    ∀ {m : List (α × β)}, (∃ v, (k, v) ∈ m) → (mapDelete k m).length < m.length := by
  intro m
  induction m with
  | nil => rintro ⟨v, hv⟩; cases hv
  | cons p m ih =>
    rintro ⟨v, hv⟩
    by_cases hp : p.1 = k
    · rw [show mapDelete k (p :: m) = mapDelete k m from by simp [mapDelete, hp]]
      exact Nat.lt_succ_of_le (mapDelete_length_le k m)
    · rw [show mapDelete k (p :: m) = p :: mapDelete k m from by simp [mapDelete, hp]]
      rcases List.mem_cons.mp hv with heq | hmem
      · exact absurd (congrArg Prod.fst heq.symm) hp
      · exact Nat.succ_lt_succ (ih ⟨v, hmem⟩)

theorem mapDelete_perm {α β : Type} [DecidableEq α] (k : α) {m₁ m₂ : List (α × β)}
    (h : m₁.Perm m₂) : (mapDelete k m₁).Perm (mapDelete k m₂) := by
  rw [mapDelete_eq_filter, mapDelete_eq_filter]
  exact h.filter _

theorem mapDelete_middle {α β : Type} [DecidableEq α] (p : α × β) (A B : List (α × β))
    (hA : ∀ q ∈ A, q.1 ≠ p.1) (hB : ∀ q ∈ B, q.1 ≠ p.1) :
    mapDelete p.1 (A ++ p :: B) = A ++ B := by
  rw [mapDelete_eq_filter, List.filter_append, List.filter_cons]
  rw [if_neg (by simp)]
  rw [List.filter_eq_self.mpr (fun q hq => by simp [hA q hq]),
    List.filter_eq_self.mpr (fun q hq => by simp [hB q hq])]

/-- The `adjustLineOffsets` fold: when every shifted key is fresh and
the cache is within its cap, each affected entry is deleted and
re-appended at its shifted key, so the result is — up to entry order —
the unaffected entries plus the shifted affected entries. -/
theorem shiftFold {α : Type} (maxSize : Nat) (δ : Int) :
    ∀ (B A acc : List (Int × α)),
      ((A ++ B).map Prod.fst).Nodup →
      (∀ p ∈ B, ∀ q ∈ A ++ B, q.1 ≠ p.1 + δ) →
      acc.Perm (A ++ B) →
      acc.length ≤ maxSize →
      (B.foldl (fun acc p => lruSet maxSize (p.1 + δ) p.2 (mapDelete p.1 acc)) acc).Perm
        (A ++ B.map (fun p => (p.1 + δ, p.2))) := by
  intro B
  induction B with
  | nil =>
    intro A acc hnd hfresh hperm hlen
    simpa using hperm
  | cons p B ih =>
    intro A acc hnd hfresh hperm hlen
    show (B.foldl _ (lruSet maxSize (p.1 + δ) p.2 (mapDelete p.1 acc))).Perm _
    have hndk : (A.map Prod.fst ++ p.1 :: B.map Prod.fst).Nodup := by
      simpa using hnd
    obtain ⟨hndA, hndpB, hdisj⟩ := List.nodup_append.mp hndk
    obtain ⟨hpB, hndB⟩ := List.nodup_cons.mp hndpB
    have hA : ∀ q ∈ A, q.1 ≠ p.1 := fun q hq hc =>
      (hdisj (List.mem_map.mpr ⟨q, hq, rfl⟩)) (by rw [hc]; exact List.mem_cons_self _ _)
    have hB : ∀ q ∈ B, q.1 ≠ p.1 := fun q hq hc =>
      hpB (by rw [← hc]; exact List.mem_map.mpr ⟨q, hq, rfl⟩)
    have hstep : (mapDelete p.1 acc).Perm (A ++ B) := by
      have h1 := mapDelete_perm p.1 hperm
      rw [mapDelete_middle p A B hA hB] at h1
      exact h1
    have hget : mapGet (p.1 + δ) (mapDelete p.1 acc) = none := by
      apply mapGet_eq_none_of_keys
      intro q hq
      have hq2 : q ∈ A ++ p :: B := by
        rcases List.mem_append.mp (hstep.subset hq) with h | h
        · exact List.mem_append_left _ h
        · exact List.mem_append_right _ (List.mem_cons_of_mem p h)
      exact hfresh p (List.mem_cons_self p B) q hq2
    have hpacc : p ∈ acc := hperm.mem_iff.mpr
      (List.mem_append_right _ (List.mem_cons_self p B))
    have hlen2 : (mapDelete p.1 acc).length < maxSize := by
      have h1 : (mapDelete p.1 acc).length < acc.length :=
        mapDelete_length_lt ⟨p.2, hpacc⟩
      omega
    have hlru : lruSet maxSize (p.1 + δ) p.2 (mapDelete p.1 acc)
        = mapDelete p.1 acc ++ [(p.1 + δ, p.2)] := by
      unfold lruSet
      rw [hget]
      rw [if_neg (by simp), if_neg (by omega)]
    rw [hlru]
    have hfreshp := hfresh p (List.mem_cons_self p B)
    have hperm2 : (mapDelete p.1 acc ++ [(p.1 + δ, p.2)]).Perm
        ((A ++ [(p.1 + δ, p.2)]) ++ B) := by
      have h1 := hstep.append_right [(p.1 + δ, p.2)]
      have h2 : ((A ++ B) ++ [(p.1 + δ, p.2)]).Perm ((A ++ [(p.1 + δ, p.2)]) ++ B) := by
        rw [List.append_assoc, List.append_assoc]
        exact (List.perm_append_comm.append_left A)
      exact h1.trans h2
    have hnd2 : (((A ++ [(p.1 + δ, p.2)]) ++ B).map Prod.fst).Nodup := by
      have hkeyperm : (((A ++ [(p.1 + δ, p.2)]) ++ B).map Prod.fst).Perm
          ((p.1 + δ) :: (A.map Prod.fst ++ B.map Prod.fst)) := by
        simp only [List.map_append, List.map_cons, List.map_nil, List.append_assoc,
          List.singleton_append, List.nil_append]
        exact List.perm_middle
      apply hkeyperm.nodup_iff.mpr
      apply List.nodup_cons.mpr
      constructor
      · intro hc
        rcases List.mem_append.mp hc with h | h
        · obtain ⟨q, hq, hqe⟩ := List.mem_map.mp h
          exact hfreshp q (List.mem_append_left _ hq) hqe
        · obtain ⟨q, hq, hqe⟩ := List.mem_map.mp h
          exact hfreshp q (List.mem_append_right _ (List.mem_cons_of_mem p hq)) hqe
      · exact List.nodup_append.mpr ⟨hndA, hndB,
          fun a ha hb => hdisj ha (List.mem_cons_of_mem _ hb)⟩
    have hfresh2 : ∀ p2 ∈ B, ∀ q ∈ (A ++ [(p.1 + δ, p.2)]) ++ B, q.1 ≠ p2.1 + δ := by
      intro p2 hp2 q hq
      rcases List.mem_append.mp hq with h | h
      · rcases List.mem_append.mp h with h2 | h2
        · exact hfresh p2 (List.mem_cons_of_mem p hp2) q (List.mem_append_left _ h2)
        · rcases List.mem_singleton.mp h2 with rfl
          show p.1 + δ ≠ p2.1 + δ
          have : p2.1 ≠ p.1 := hB p2 hp2
          omega
      · exact hfresh p2 (List.mem_cons_of_mem p hp2) q
          (List.mem_append_right _ (List.mem_cons_of_mem p h))
    have hlen3 : (mapDelete p.1 acc ++ [(p.1 + δ, p.2)]).length ≤ maxSize := by
      rw [List.length_append]
      simp only [List.length_singleton]
      omega
    have hres := ih (A ++ [(p.1 + δ, p.2)]) (mapDelete p.1 acc ++ [(p.1 + δ, p.2)])
      hnd2 hfresh2 hperm2 hlen3
    rw [List.append_assoc, List.singleton_append] at hres
    simpa using hres

/-- `adjustLineOffsets` with its `let` binding expanded (for proofs). -/
theorem adjustLineOffsets_eq {α : Type} (maxSize : Nat) (changeEndLine deltaLines : Int)
    (c : List (Int × α)) :
    adjustLineOffsets maxSize changeEndLine deltaLines c =
      if deltaLines = 0 then c
      else (c.filter (fun p => decide (changeEndLine < p.1))).foldl
        (fun acc p => lruSet maxSize (p.1 + deltaLines) p.2 (mapDelete p.1 acc)) c := rfl

/-- `linkHandleChange` with its `let` bindings expanded (for proofs). -/
theorem linkHandleChange_eq {α : Type} (maxSize : Nat)
    (lineCount startLine endLine newLineCount : Int) (c : List (Int × α)) :
    linkHandleChange maxSize lineCount startLine endLine newLineCount c =
      (if newLineCount - (endLine - startLine + 1) ≠ 0 then
        adjustLineOffsets maxSize endLine (newLineCount - (endLine - startLine + 1))
          (clearLineCache
            (intRange startLine endLine ++
              (if newLineCount - (endLine - startLine + 1) ≠ 0 then
                intRange (endLine + 1) (lineCount - 1) else []))
            c)
      else
        clearLineCache
          (intRange startLine endLine ++
            (if newLineCount - (endLine - startLine + 1) ≠ 0 then
              intRange (endLine + 1) (lineCount - 1) else []))
          c) := rfl

/-- C3 (amended): for a text edit on `[startLine, endLine]` with net
line-count change `δ ≠ 0` on a document whose new line count is
`lineCount`, the line cache deletes every entry with key in
`[startLine, lineCount - 1]` — not only `[startLine, endLine]` — and
re-keys by `δ` only the entries whose key is at least `lineCount`;
entries below `startLine` remain untouched and correctly keyed. -/
theorem c3_linecache_rekey_amended {α : Type} (maxSize : Nat)
    (lineCount startLine endLine newLineCount δ : Int) (c : List (Int × α))
    (hnd : (c.map Prod.fst).Nodup)
    (hse : startLine ≤ endLine)
    (hnl : 1 ≤ newLineCount)
    (hδ : δ = newLineCount - (endLine - startLine + 1))
    (hδne : δ ≠ 0)
    (hkeys : ∀ p ∈ c, p.1 < lineCount - δ)
    (hcap : c.length ≤ maxSize) :
    ∀ l, mapGet l (linkHandleChange maxSize lineCount startLine endLine newLineCount c)
      = mapGet l
          (c.filter (fun p => decide (p.1 < startLine)) ++
            (c.filter (fun p => decide (endLine < p.1 ∧ lineCount ≤ p.1))).map
              (fun p => (p.1 + δ, p.2))) := by
  intro l
  rw [linkHandleChange_eq, ← hδ, if_pos hδne, if_pos hδne, adjustLineOffsets_eq,
    if_neg hδne, clearLineCache_eq_filter]
  have hmemR : ∀ k : Int,
      (k ∈ intRange startLine endLine ++ intRange (endLine + 1) (lineCount - 1))
        ↔ ((startLine ≤ k ∧ k ≤ endLine) ∨ (endLine + 1 ≤ k ∧ k ≤ lineCount - 1)) := by
    intro k
    rw [List.mem_append, intRange_mem, intRange_mem]
  have hBeq : ((c.filter (fun p => decide
        (¬ p.1 ∈ intRange startLine endLine ++ intRange (endLine + 1) (lineCount - 1)))).filter
        (fun p => decide (endLine < p.1)))
      = c.filter (fun p => decide (endLine < p.1 ∧ lineCount ≤ p.1)) := by
    rw [List.filter_filter]
    apply List.filter_congr
    intro p hp
    have hk := hkeys p hp
    apply Bool.coe_iff_coe.mp
    simp only [Bool.and_eq_true, decide_eq_true_eq, List.mem_append, intRange_mem]
    omega
  have hAeq : ((c.filter (fun p => decide
        (¬ p.1 ∈ intRange startLine endLine ++ intRange (endLine + 1) (lineCount - 1)))).filter
        (fun p => !decide (endLine < p.1)))
      = c.filter (fun p => decide (p.1 < startLine)) := by
    rw [List.filter_filter]
    apply List.filter_congr
    intro p hp
    apply Bool.coe_iff_coe.mp
    simp only [Bool.and_eq_true, Bool.not_eq_true', decide_eq_true_eq,
      decide_eq_false_iff_not, List.mem_append, intRange_mem]
    omega
  rw [hBeq]
  have hndf : ∀ (f : Int × α → Bool), ((c.filter f).map Prod.fst).Nodup := by
    intro f
    exact List.Nodup.sublist ((List.filter_sublist c).map Prod.fst) hnd
  have hndAB : (((c.filter (fun p => decide (p.1 < startLine))) ++
      (c.filter (fun p => decide (endLine < p.1 ∧ lineCount ≤ p.1)))).map Prod.fst).Nodup := by
    rw [List.map_append]
    apply List.nodup_append.mpr
    refine ⟨hndf _, hndf _, ?_⟩
    intro a ha hb
    obtain ⟨q, hq, rfl⟩ := List.mem_map.mp ha
    obtain ⟨r, hr, hre⟩ := List.mem_map.mp hb
    have h1 : q.1 < startLine := by simpa using (List.mem_filter.mp hq).2
    have h2 : endLine < r.1 ∧ lineCount ≤ r.1 := by simpa using (List.mem_filter.mp hr).2
    omega
  have hfresh : ∀ p ∈ c.filter (fun p => decide (endLine < p.1 ∧ lineCount ≤ p.1)),
      ∀ q ∈ (c.filter (fun p => decide (p.1 < startLine))) ++
        (c.filter (fun p => decide (endLine < p.1 ∧ lineCount ≤ p.1))), q.1 ≠ p.1 + δ := by
    intro p hp q hq
    have hpc := List.mem_filter.mp hp
    have hp2 : endLine < p.1 ∧ lineCount ≤ p.1 := by simpa using hpc.2
    have hpk := hkeys p hpc.1
    rcases List.mem_append.mp hq with h | h
    · have h1 : q.1 < startLine := by simpa using (List.mem_filter.mp h).2
      omega
    · have h1 : endLine < q.1 ∧ lineCount ≤ q.1 := by simpa using (List.mem_filter.mp h).2
      omega
  have hperm : (c.filter (fun p => decide
      (¬ p.1 ∈ intRange startLine endLine ++ intRange (endLine + 1) (lineCount - 1)))).Perm
      ((c.filter (fun p => decide (p.1 < startLine))) ++
        (c.filter (fun p => decide (endLine < p.1 ∧ lineCount ≤ p.1)))) := by
    have hsplit := List.filter_append_perm (fun p => decide (endLine < p.1))
      (c.filter (fun p => decide
        (¬ p.1 ∈ intRange startLine endLine ++ intRange (endLine + 1) (lineCount - 1))))
    rw [hBeq, hAeq] at hsplit
    exact hsplit.symm.trans List.perm_append_comm
  have hcap2 : (c.filter (fun p => decide
      (¬ p.1 ∈ intRange startLine endLine ++ intRange (endLine + 1) (lineCount - 1)))).length
      ≤ maxSize := le_trans (List.length_filter_le _ c) hcap
  have hres := shiftFold maxSize δ
    (c.filter (fun p => decide (endLine < p.1 ∧ lineCount ≤ p.1)))
    (c.filter (fun p => decide (p.1 < startLine)))
    (c.filter (fun p => decide
      (¬ p.1 ∈ intRange startLine endLine ++ intRange (endLine + 1) (lineCount - 1))))
    hndAB hfresh hperm hcap2
  have hndS : (((c.filter (fun p => decide (p.1 < startLine))) ++
      (c.filter (fun p => decide (endLine < p.1 ∧ lineCount ≤ p.1))).map
        (fun p => (p.1 + δ, p.2))).map Prod.fst).Nodup := by
    rw [List.map_append]
    apply List.nodup_append.mpr
    refine ⟨hndf _, ?_, ?_⟩
    · have hmm : ((c.filter (fun p => decide (endLine < p.1 ∧ lineCount ≤ p.1))).map
          (fun p => (p.1 + δ, p.2))).map Prod.fst
          = ((c.filter (fun p => decide (endLine < p.1 ∧ lineCount ≤ p.1))).map
              Prod.fst).map (fun k => k + δ) := by
        rw [List.map_map, List.map_map]
        rfl
      rw [hmm]
      exact List.Nodup.map (fun a b h => by omega) (hndf _)
    · intro a ha hb
      obtain ⟨q, hq, rfl⟩ := List.mem_map.mp ha
      obtain ⟨r, hr, hre⟩ := List.mem_map.mp hb
      obtain ⟨r2, hr2, rfl⟩ := List.mem_map.mp hr
      have h1 : q.1 < startLine := by simpa using (List.mem_filter.mp hq).2
      have h2 : endLine < r2.1 ∧ lineCount ≤ r2.1 := by simpa using (List.mem_filter.mp hr2).2
      have h3 : r2.1 + δ = q.1 := hre
      omega
  exact mapGet_perm hres (((hres.map Prod.fst).nodup_iff).mpr hndS) l

/-- A concrete instance of the amended re-keying property: cache entries
at lines 0, 5 and 11; deleting one line
(change on lines 3–4 replaced by one line) re-keys line 11 to 10. -/
theorem c3_linecache_rekey_amended_witness :
    mapGet 10 (linkHandleChange 500 11 3 4 1
        ([((0 : Int), "a"), (5, "b"), (11, "c")] : List (Int × String)))
      = mapGet 10
          (([((0 : Int), "a"), (5, "b"), (11, "c")] : List (Int × String)).filter
              (fun p => decide (p.1 < 3)) ++
            (([((0 : Int), "a"), (5, "b"), (11, "c")] : List (Int × String)).filter
              (fun p => decide (4 < p.1 ∧ 11 ≤ p.1))).map (fun p => (p.1 + -1, p.2))) :=
  c3_linecache_rekey_amended 500 11 3 4 1 (-1)
    ([((0 : Int), "a"), (5, "b"), (11, "c")] : List (Int × String))
    (by decide) (by decide) (by decide) (by decide) (by decide) (by decide) (by decide) 10
